import Mathlib

/-!
Verification of the temporal-cycle enumeration core
(`cycles_detection.py`, structural-first mode, and
`cycles_detection_temporal_edge.py`, exact mode) against its
natural-language specification.

The graph backend (raphtory) is external; its interface is modelled from
the spec (§6): a temporal graph is the list of its edges, each edge a
(src, dst) pair carrying the list of observation timestamps returned by
`edge.history()`.  Python `int | None` optional bounds are `Option Int`,
Python truthiness (`None` and `0` falsy) is modelled explicitly.
-/

namespace TC

/-- A directed temporal edge: source node, destination node, and the list of
timestamps at which the edge was observed (`edge.history()`).  raphtory keeps
one edge object per (src, dst) pair, holding all observations. -/
structure TEdge where
  src : String
  dst : String
  history : List Int
deriving DecidableEq, Repr

/-- A temporal graph, as the list of its edges. -/
abbrev TGraph := List TEdge

/-- An emitted result: (node sequence, timestamp sequence). -/
abbrev Res := List String × List Int

/-- Python truthiness of an `int | None` configuration value:
`None` and `0` are falsy, everything else truthy. -/
def truthy : Option Int → Bool
  | none => false
  | some v => v != 0

/-- The shared cycle-cap test `max_cycles and cycle_count[0] >= max_cycles`. -/
def capReached : Option Int → Int → Bool
  | none, _ => false
  | some c, count => c != 0 && decide (c ≤ count)

/-- Association-list update with Python dict semantics: replace the value of
an existing key in place, otherwise append the binding. -/
def dictInsert {α β : Type} [BEq α] : List (α × β) → α → β → List (α × β)
  | [], k, v => [(k, v)]
  | (k', v') :: rest, k, v =>
    if k' == k then (k, v) :: rest else (k', v') :: dictInsert rest k v

/-- Association-list lookup with a default (Python `dict.get` / defaultdict). -/
def dictGet {α β : Type} [BEq α] (d : List (α × β)) (k : α) (dflt : β) : β :=
  match d.find? (fun p => p.1 == k) with
  | some p => p.2
  | none => dflt

/-- Python `set.add`: insert if absent (we fix insertion order). -/
def setInsert {α : Type} [BEq α] (s : List α) (x : α) : List α :=
  if s.contains x then s else s ++ [x]

/-- Deduplication keeping first occurrences (Python dict/set insertion
order). -/
def firstDedup {α : Type} [BEq α] (l : List α) : List α :=
  l.foldl (fun acc x => if acc.contains x then acc else acc ++ [x]) []

/-- The nodes of the graph, in first-appearance order over the edge list. -/
def nodesOf (g : TGraph) : List String :=
  firstDedup (g.flatMap (fun e => [e.src, e.dst]))

/-- `rolling_g.subgraph(nodes)`: the graph restricted to the given nodes and
the edges between them. -/
def subgraphOf (g : TGraph) (ns : List String) : TGraph :=
  g.filter (fun e => ns.contains e.src && ns.contains e.dst)

/-- Modelled from the spec: successor step of the graph backend's
reachability, used only to compute the strongly-connected-component
grouping (§6), which raphtory provides externally. -/
def succsIn (g : TGraph) (n : String) : List String :=
  firstDedup ((g.filter (fun e => e.src == n)).map (·.dst))

/-- Modelled from the spec: one saturation pass of reachability. -/
def reachStep (g : TGraph) (seen : List String) : List String :=
  firstDedup (seen ++ seen.flatMap (succsIn g))

/-- Modelled from the spec: iterated reachability saturation. -/
def reachIter (g : TGraph) : Nat → List String → List String
  | 0, seen => seen
  | n + 1, seen => reachIter g n (reachStep g seen)

/-- Modelled from the spec: node `v` is (reflexively) reachable from `u`. -/
def reaches (g : TGraph) (u v : String) : Bool :=
  decide (v ∈ reachIter g (nodesOf g).length [u])

/-- Modelled from the spec: `u` and `v` lie in the same strongly connected
component (each reaches the other, §6 / glossary). -/
def sameSCC (g : TGraph) (u v : String) : Bool :=
  reaches g u v && reaches g v u

/-- Modelled from the spec: the SCC grouping returned by the backend's
`strongly_connected_components(...).groups()`, as a list of components in
first-appearance node order. -/
def components (g : TGraph) : List (List String) :=
  (nodesOf g).foldl
    (fun comps n =>
      if comps.any (fun c => c.contains n) then comps
      else comps ++ [(nodesOf g).filter (fun m => sameSCC g n m)])
    []

/-- The components kept by both top-level searches: `if len(value) > 1`. -/
def nontrivialComponents (g : TGraph) : List (List String) :=
  (components g).filter (fun c => decide (1 < c.length))

/-! ## Exact mode (`cycles_detection_temporal_edge.py`) -/

/-- `adjacency : node → (neighbor → ascending timestamp list)`. -/
abbrev Adjacency := List (String × List (String × List Int))

/-- `adjacency[node_id]` (a defaultdict: missing nodes give the empty dict). -/
def adjGet (adj : Adjacency) (v : String) : List (String × List Int) :=
  dictGet adj v []

/-- The adjacency pre-build of `temporal_cycles_`: for every node, for every
outgoing edge, the sorted timestamp history; edges with an empty history are
omitted. -/
def buildAdjacency (g : TGraph) : Adjacency :=
  (nodesOf g).foldl
    (fun adj n =>
      (g.filter (fun e => e.src == n)).foldl
        (fun adj e =>
          let times := e.history.insertionSort (· ≤ ·)
          if times.isEmpty then adj
          else dictInsert adj n (dictInsert (adjGet adj n) e.dst times))
        adj)
    []

/-- `_out_neighbors`: (neighbor, timestamp) pairs from `v`; all timestamps
when `prev_time is None`, otherwise only those strictly greater than
`prev_time` (`bisect_right` locates, on the ascending history, the suffix of
entries greater than `prev_time`; `dropWhile` is that suffix). -/
def out_neighbors_ (adj : Adjacency) (v : String) (prevTime : Option Int) :
    List (String × Int) :=
  (adjGet adj v).flatMap (fun p =>
    match prevTime with
    | none => p.2.map (fun t => (p.1, t))
    | some prev => (p.2.dropWhile (fun t => decide (t ≤ prev))).map (fun t => (p.1, t)))

/-- The configuration of the exact-mode search. -/
structure Cfg where
  maxLength : Option Int
  maxCycles : Option Int
  maxDuration : Option Int
deriving DecidableEq, Repr

/-- The shared Johnson search state: the cycle counter `cycle_count[0]`, the
`blocked` set and the reactivation map `B`. -/
structure JState where
  count : Int
  blocked : List String
  B : List (String × List String)
deriving DecidableEq, Repr

/-- The duration pruning filter
`if times_path and max_duration and t_next - times_path[0] > max_duration`. -/
def durSkip (maxDuration : Option Int) (timesPath : List Int) (t : Int) : Bool :=
  match timesPath, maxDuration with
  | t0 :: _, some d => d != 0 && decide (d < t - t0)
  | _, _ => false

/-- `duration = t_next - times_path[0] if times_path else 0`. -/
def closeDuration (timesPath : List Int) (t : Int) : Int :=
  match timesPath with
  | t0 :: _ => t - t0
  | [] => 0

/-- `max_length is None or len(path) <= max_length`. -/
def lenOkClose (maxLength : Option Int) (path : List String) : Bool :=
  match maxLength with
  | none => true
  | some l => decide ((path.length : Int) ≤ l)

/-- `max_duration is None or duration <= max_duration`. -/
def durOkClose (maxDuration : Option Int) (d : Int) : Bool :=
  match maxDuration with
  | none => true
  | some md => decide (d ≤ md)

/-- `max_length is None or len(path) < max_length`. -/
def lenOkGrow (maxLength : Option Int) (path : List String) : Bool :=
  match maxLength with
  | none => true
  | some l => decide ((path.length : Int) < l)

/-- Johnson's `unblock`: remove `u` from the blocked set and recursively
unblock every node registered as depending on it in `B`.  The Python
recursion is bounded by the shrinking blocked set; `fuel` makes the bound
explicit (callers pass more fuel than the blocked set's size). -/
def unblock : Nat → String → List String → List (String × List String) →
    List String × List (String × List String)
  | 0, _, blocked, B => (blocked, B)
  | fuel + 1, u, blocked, B =>
    if blocked.contains u then
      let blocked' := blocked.erase u
      let deps := dictGet B u []
      let B' := dictInsert B u []
      deps.foldl (fun s v => unblock fuel v s.1 s.2) (blocked', B')
    else (blocked, B)

/-- The `else` branch of the Johnson bookkeeping in exact mode:
`for w, _ in _out_neighbors(v, None, adjacency): B[w].add(v)`. -/
def registerB (adj : Adjacency) (v : String) (B : List (String × List String)) :
    List (String × List String) :=
  (out_neighbors_ adj v none).foldl
    (fun B p => dictInsert B p.1 (setInsert (dictGet B p.1 []) v)) B

/-- Result of one `backtrack` generator run: the results it yielded, the
final shared state, and whether it returned through the cycle-cap check. -/
structure BtOut where
  results : List Res
  st : JState
  stopped : Bool
deriving Repr

/-- Result of the `for w, t_next in _out_neighbors(...)` loop of `backtrack`:
yielded results, shared state, the `closed` flag, and whether the cycle cap
fired. -/
structure GoOut where
  results : List Res
  st : JState
  closed : Bool
  stopped : Bool
deriving Repr

/-- The neighbor loop of `backtrack` in `johnson_temporal_cycle_search`;
`bt` is the recursive `backtrack` call at the next depth. -/
def goE (bt : String → Option Int → List String → List Int → JState → BtOut)
    (cfg : Cfg) (start : String) :
    List (String × Int) → String → List String → List Int → JState → Bool → GoOut
  | [], _, _, _, st, closed => ⟨[], st, closed, false⟩
  | (w, t) :: rest, v, path, timesPath, st, closed =>
    if durSkip cfg.maxDuration timesPath t then
      goE bt cfg start rest v path timesPath st closed
    else if w == start then
      if lenOkClose cfg.maxLength path &&
          durOkClose cfg.maxDuration (closeDuration timesPath t) then
        let st' : JState := { st with count := st.count + 1 }
        let res : Res := (path ++ [start], timesPath ++ [t])
        if capReached cfg.maxCycles st'.count then ⟨[res], st', true, true⟩
        else
          let out := goE bt cfg start rest v path timesPath st' true
          ⟨res :: out.results, out.st, out.closed, out.stopped⟩
      else goE bt cfg start rest v path timesPath st closed
    else if !path.contains w && lenOkGrow cfg.maxLength path then
      let inner := bt w (some t) (path ++ [w]) (timesPath ++ [t]) st
      let closed' := closed || !inner.results.isEmpty
      if inner.stopped then ⟨inner.results, inner.st, closed', true⟩
      else
        let out := goE bt cfg start rest v path timesPath inner.st closed'
        ⟨inner.results ++ out.results, out.st, out.closed, out.stopped⟩
    else goE bt cfg start rest v path timesPath st closed

/-- `backtrack` of `johnson_temporal_cycle_search`, with the blocked set and
reactivation map threaded exactly as in the source.  `fuel` bounds the
recursion depth (the path of distinct nodes bounds it in the source). -/
def backtrackE (adj : Adjacency) (cfg : Cfg) (start : String) :
    Nat → String → Option Int → List String → List Int → JState → BtOut
  | 0, _, _, _, _, st => ⟨[], st, false⟩
  | fuel + 1, v, lastTime, path, timesPath, st =>
    let st0 : JState := { st with blocked := setInsert st.blocked v }
    let out := goE (fun w lt p tp s => backtrackE adj cfg start fuel w lt p tp s)
      cfg start (out_neighbors_ adj v lastTime) v path timesPath st0 false
    if out.stopped then ⟨out.results, out.st, true⟩
    else if out.closed then
      let ub := unblock (out.st.blocked.length + 1) v out.st.blocked out.st.B
      ⟨out.results, { out.st with blocked := ub.1, B := ub.2 }, false⟩
    else
      ⟨out.results, { out.st with B := registerB adj v out.st.B }, false⟩

/-- The `for comp in components: for start in comp:` driver of
`temporal_cycles_`: one `johnson_temporal_cycle_search` per start node,
fresh blocked/`B` each time, the cycle counter shared, and the post-yield
cap check ending the whole iteration. -/
def runStartsE (adj : Adjacency) (cfg : Cfg) (fuel : Nat) :
    List String → Int → List Res
  | [], _ => []
  | s :: rest, count =>
    let out := backtrackE adj cfg s fuel s none [s] [] ⟨count, [], []⟩
    if out.stopped then out.results
    else out.results ++ runStartsE adj cfg fuel rest out.st.count

/-- `temporal_cycles_` (exact mode): SCC restriction, subgraph, adjacency
construction, then the Johnson-style temporal search over every component
and start node. -/
def temporal_cycles_ (g : TGraph)
    (maxLength maxCycles maxDuration : Option Int) : List Res :=
  let comps := nontrivialComponents g
  let ns := comps.flatMap id
  let g' := subgraphOf g ns
  let adj := buildAdjacency g'
  runStartsE adj ⟨maxLength, maxCycles, maxDuration⟩ (ns.length + 1)
    (comps.flatMap id) 0

/-! ## Structural-first mode (`cycles_detection.py`) -/

/-- `int(edge.earliest_time)`: the earliest observation of the edge
(raphtory edges always carry at least one observation; the empty-history
default is irrelevant to the searches, which only see subgraph edges). -/
def earliestTime (e : TEdge) : Int :=
  match e.history with
  | [] => 0
  | t :: ts => ts.foldl min t

/-- `int(edge.latest_time)`: the latest observation of the edge. -/
def latestTime (e : TEdge) : Int :=
  match e.history with
  | [] => 0
  | t :: ts => ts.foldl max t

/-- `out_neighbors`: feasible outgoing edges of `v` under the coarse interval
test `next_interval[1] > prev_interval[0]` (first edge: always allowed). -/
def out_neighbors (g : TGraph) (v : String) (prevI : Option (Int × Int)) :
    List (String × (Int × Int)) :=
  (g.filter (fun e => e.src == v)).filterMap (fun e =>
    let ni := (earliestTime e, latestTime e)
    match prevI with
    | none => some (e.dst, ni)
    | some p => if p.1 < ni.2 then some (e.dst, ni) else none)

/-- `rolling_g.edge(src=src, dst=dst)`. -/
def edgeLookup (g : TGraph) (s d : String) : Option TEdge :=
  g.find? (fun e => e.src == s && e.dst == d)

/-- The edge-resolution loop of `validate_cycle`: the sorted timestamp
history of each edge of the structural cycle, or `none` as soon as an edge
is missing from the graph or has an empty history. -/
def buildTimeLists (g : TGraph) : List (String × String) → Option (List (List Int))
  | [] => some []
  | (s, d) :: rest =>
    match edgeLookup g s d with
    | none => none
    | some e =>
      if e.history.isEmpty then none
      else
        match buildTimeLists g rest with
        | none => none
        | some ls => some (e.history.insertionSort (· ≤ ·) :: ls)

/-- `node_path = [edge_cycle[0][0]] + [dst for _, dst in edge_cycle]`
(callers never pass an empty edge cycle). -/
def nodePathOf : List (String × String) → List String
  | [] => []
  | ec@((s, _) :: _) => s :: ec.map Prod.snd

/-- The early-stop test of `validate_cycle.dfs`:
`max_combo is not None and len(results) >= max_combo`. -/
def comboStop (maxCombo : Option Int) (results : List Res) : Bool :=
  match maxCombo with
  | none => false
  | some m => decide (m ≤ (results.length : Int))

/-- `t > prev_t`, where `prev_t` is seeded at minus infinity (`none`). -/
def tGt : Option Int → Int → Bool
  | none, _ => true
  | some p, t => decide (p < t)

/-- The final duration test of `validate_cycle.dfs`:
`max_duration is not None and (combo[-1] - combo[0]) > max_duration`. -/
def comboDurFail (maxDuration : Option Int) (combo : List Int) : Bool :=
  match maxDuration, combo with
  | some d, c0 :: cs => decide (d < cs.getLastD c0 - c0)
  | _, _ => false

/-- The `i == len(time_lists)` branch of `validate_cycle.dfs`: duration
check, then record the realization unless its key was already seen (`seen`
is exactly the key set of `results`). -/
def recordCombo (np : List String) (maxDuration : Option Int) (combo : List Int)
    (results : List Res) : List Res :=
  if comboDurFail maxDuration combo then results
  else if (np, combo) ∈ results then results
  else results ++ [(np, combo)]

/-- The `for t in time_lists[i]` loop of `validate_cycle.dfs`; `nxt` is the
recursive `dfs(i + 1, t, combo)` call. -/
def vloop (maxCombo : Option Int)
    (nxt : Option Int → List Int → List Res → List Res) :
    List Int → Option Int → List Int → List Res → List Res
  | [], _, _, results => results
  | t :: ts, prev, combo, results =>
    if comboStop maxCombo results then results
    else if tGt prev t then
      vloop maxCombo nxt ts prev combo (nxt (some t) (combo ++ [t]) results)
    else vloop maxCombo nxt ts prev combo results

/-- `validate_cycle.dfs` over the remaining per-edge time lists. -/
def vdfs (np : List String) (maxDuration maxCombo : Option Int) :
    List (List Int) → Option Int → List Int → List Res → List Res
  | [], _, combo, results =>
    if comboStop maxCombo results then results
    else recordCombo np maxDuration combo results
  | ts :: rest, prev, combo, results =>
    if comboStop maxCombo results then results
    else vloop maxCombo (fun p c r => vdfs np maxDuration maxCombo rest p c r)
      ts prev combo results

/-- `validate_cycle`: all distinct strictly time-increasing realizations of
one structural cycle, capped by `max_combo`. -/
def validate_cycle (g : TGraph) (edge_cycle : List (String × String))
    (maxDuration maxCombo : Option Int) : List Res :=
  match buildTimeLists g edge_cycle with
  | none => []
  | some tls => vdfs (nodePathOf edge_cycle) maxDuration maxCombo tls none [] []

/-- The configuration of the structural-first search. -/
structure CfgS where
  maxLength : Option Int
  maxCycles : Option Int
  maxDuration : Option Int
  maxCombo : Option Int
deriving DecidableEq, Repr

/-- The duration pruning filter of `johnson_cycle_search`:
`if max_duration and times_path: duration = next_interval[0] -
times_path[0][1]; if duration > max_duration: continue`. -/
def durSkipS (maxDuration : Option Int) (timesPath : List (Int × Int))
    (ni : Int × Int) : Bool :=
  match maxDuration, timesPath with
  | some d, p0 :: _ => d != 0 && decide (d < ni.1 - p0.2)
  | _, _ => false

/-- `duration = next_interval[0] - times_path[0][1] if times_path else 0`. -/
def closeDurationS (timesPath : List (Int × Int)) (ni : Int × Int) : Int :=
  match timesPath with
  | p0 :: _ => ni.1 - p0.2
  | [] => 0

/-- `edge_cycle = list(zip(raw_cycle_nodes[:-1], raw_cycle_nodes[1:]))`. -/
def zipEdges (ns : List String) : List (String × String) :=
  ns.zip ns.tail

/-- The `else` branch of the Johnson bookkeeping in structural mode:
`for edge in rolling_g.node(v).out_edges: B[edge.dst.name].add(v)`. -/
def registerBS (g : TGraph) (v : String) (B : List (String × List String)) :
    List (String × List String) :=
  (g.filter (fun e => e.src == v)).foldl
    (fun B e => dictInsert B e.dst (setInsert (dictGet B e.dst []) v)) B

/-- Result of one structural-mode `backtrack` run: the realizations the
consumer (`temporal_cycles`) emitted from its raw cycles, the final shared
state, whether the cycle cap fired, and whether any raw cycle was yielded
(feeding the caller's `closed` flag). -/
structure BtOutS where
  results : List Res
  st : JState
  stopped : Bool
  closedAny : Bool
deriving Repr

/-- Result of the neighbor loop of structural-mode `backtrack`. -/
structure GoOutS where
  results : List Res
  st : JState
  closed : Bool
  stopped : Bool
deriving Repr

/-- The `for w, next_interval in out_neighbors(...)` loop of `backtrack` in
`johnson_cycle_search`, fused with the consuming loop of `temporal_cycles`:
at each raw-cycle yield the consumer runs `validate_cycle`, adds the batch
size to the shared counter, emits the batch, and the cap is tested with the
updated counter (the generator's own post-yield test sees the same value on
resumption).  `bt` is the recursive `backtrack` call at the next depth. -/
def goS (bt : String → Option (Int × Int) → List String → List (Int × Int) →
      JState → BtOutS)
    (g : TGraph) (cfg : CfgS) (start : String) :
    List (String × (Int × Int)) → String → List String → List (Int × Int) →
    JState → Bool → GoOutS
  | [], _, _, _, st, closed => ⟨[], st, closed, false⟩
  | (w, ni) :: rest, v, path, timesPath, st, closed =>
    if durSkipS cfg.maxDuration timesPath ni then
      goS bt g cfg start rest v path timesPath st closed
    else if w == start then
      if lenOkClose cfg.maxLength path &&
          durOkClose cfg.maxDuration (closeDurationS timesPath ni) then
        let vcs := validate_cycle g (zipEdges (path ++ [start]))
          cfg.maxDuration cfg.maxCombo
        let st' : JState := { st with count := st.count + (vcs.length : Int) }
        if capReached cfg.maxCycles st'.count then ⟨vcs, st', true, true⟩
        else
          let out := goS bt g cfg start rest v path timesPath st' true
          ⟨vcs ++ out.results, out.st, out.closed, out.stopped⟩
      else goS bt g cfg start rest v path timesPath st closed
    else if !path.contains w && lenOkGrow cfg.maxLength path then
      let inner := bt w (some ni) (path ++ [w]) (timesPath ++ [ni]) st
      let closed' := closed || inner.closedAny
      if inner.stopped then ⟨inner.results, inner.st, closed', true⟩
      else
        let out := goS bt g cfg start rest v path timesPath inner.st closed'
        ⟨inner.results ++ out.results, out.st, out.closed, out.stopped⟩
    else goS bt g cfg start rest v path timesPath st closed

/-- `backtrack` of `johnson_cycle_search` (fused with validation as in
`goS`), with blocked/`B` threaded exactly as in the source. -/
def backtrackS (g : TGraph) (cfg : CfgS) (start : String) :
    Nat → String → Option (Int × Int) → List String → List (Int × Int) →
    JState → BtOutS
  | 0, _, _, _, _, st => ⟨[], st, false, false⟩
  | fuel + 1, v, prevI, path, timesPath, st =>
    let st0 : JState := { st with blocked := setInsert st.blocked v }
    let out := goS (fun w pi p tp s => backtrackS g cfg start fuel w pi p tp s)
      g cfg start (out_neighbors g v prevI) v path timesPath st0 false
    if out.stopped then ⟨out.results, out.st, true, out.closed⟩
    else if out.closed then
      let ub := unblock (out.st.blocked.length + 1) v out.st.blocked out.st.B
      ⟨out.results, { out.st with blocked := ub.1, B := ub.2 }, false, out.closed⟩
    else
      ⟨out.results, { out.st with B := registerBS g v out.st.B }, false, out.closed⟩

/-- The `for comp in components: for start in comp:` driver of
`temporal_cycles`, with the shared counter threaded and the post-batch cap
check ending the whole iteration. -/
def runStartsS (g : TGraph) (cfg : CfgS) (fuel : Nat) :
    List String → Int → List Res
  | [], _ => []
  | s :: rest, count =>
    let out := backtrackS g cfg s fuel s none [s] [] ⟨count, [], []⟩
    if out.stopped then out.results
    else out.results ++ runStartsS g cfg fuel rest out.st.count

/-- `temporal_cycles` (structural-first mode): SCC restriction, subgraph,
then for each component and start node a `johnson_cycle_search` whose raw
cycles are validated by `validate_cycle`, batches of realizations being
emitted under the shared cycle counter. -/
def temporal_cycles (g : TGraph)
    (maxLength maxCycles maxDuration maxCombo : Option Int) : List Res :=
  let comps := nontrivialComponents g
  let ns := comps.flatMap id
  let g' := subgraphOf g ns
  runStartsS g' ⟨maxLength, maxCycles, maxDuration, maxCombo⟩ (ns.length + 1)
    (comps.flatMap id) 0

/-! ## The searches with the Johnson blocking bookkeeping removed (C9)

The same two searches, with the `blocked` set, the reactivation map `B`,
`unblock` and the `closed` flag deleted; only the shared cycle counter
remains.  C9 claims these emit exactly what the full searches emit. -/

/-- Result of a bookkeeping-free `backtrack` run. -/
structure BtOutC where
  results : List Res
  count : Int
  stopped : Bool
deriving Repr

/-- The neighbor loop of exact-mode `backtrack`, bookkeeping removed. -/
def goENoBk (bt : String → Option Int → List String → List Int → Int → BtOutC)
    (cfg : Cfg) (start : String) :
    List (String × Int) → String → List String → List Int → Int → BtOutC
  | [], _, _, _, c => ⟨[], c, false⟩
  | (w, t) :: rest, v, path, timesPath, c =>
    if durSkip cfg.maxDuration timesPath t then
      goENoBk bt cfg start rest v path timesPath c
    else if w == start then
      if lenOkClose cfg.maxLength path &&
          durOkClose cfg.maxDuration (closeDuration timesPath t) then
        let c' := c + 1
        let res : Res := (path ++ [start], timesPath ++ [t])
        if capReached cfg.maxCycles c' then ⟨[res], c', true⟩
        else
          let out := goENoBk bt cfg start rest v path timesPath c'
          ⟨res :: out.results, out.count, out.stopped⟩
      else goENoBk bt cfg start rest v path timesPath c
    else if !path.contains w && lenOkGrow cfg.maxLength path then
      let inner := bt w (some t) (path ++ [w]) (timesPath ++ [t]) c
      if inner.stopped then inner
      else
        let out := goENoBk bt cfg start rest v path timesPath inner.count
        ⟨inner.results ++ out.results, out.count, out.stopped⟩
    else goENoBk bt cfg start rest v path timesPath c

/-- Exact-mode `backtrack`, bookkeeping removed. -/
def backtrackENoBk (adj : Adjacency) (cfg : Cfg) (start : String) :
    Nat → String → Option Int → List String → List Int → Int → BtOutC
  | 0, _, _, _, _, c => ⟨[], c, false⟩
  | fuel + 1, v, lastTime, path, timesPath, c =>
    goENoBk (fun w lt p tp s => backtrackENoBk adj cfg start fuel w lt p tp s)
      cfg start (out_neighbors_ adj v lastTime) v path timesPath c

/-- The start-node driver of exact mode, bookkeeping removed. -/
def runStartsENoBk (adj : Adjacency) (cfg : Cfg) (fuel : Nat) :
    List String → Int → List Res
  | [], _ => []
  | s :: rest, count =>
    let out := backtrackENoBk adj cfg s fuel s none [s] [] count
    if out.stopped then out.results
    else out.results ++ runStartsENoBk adj cfg fuel rest out.count

/-- `temporal_cycles_` with the blocked/`B`/`unblock` bookkeeping removed. -/
def temporal_cycles_noBk_ (g : TGraph)
    (maxLength maxCycles maxDuration : Option Int) : List Res :=
  let comps := nontrivialComponents g
  let ns := comps.flatMap id
  let g' := subgraphOf g ns
  let adj := buildAdjacency g'
  runStartsENoBk adj ⟨maxLength, maxCycles, maxDuration⟩ (ns.length + 1)
    (comps.flatMap id) 0

/-- The neighbor loop of structural-mode `backtrack`, bookkeeping removed. -/
def goSNoBk (bt : String → Option (Int × Int) → List String → List (Int × Int) →
      Int → BtOutC)
    (g : TGraph) (cfg : CfgS) (start : String) :
    List (String × (Int × Int)) → String → List String → List (Int × Int) →
    Int → BtOutC
  | [], _, _, _, c => ⟨[], c, false⟩
  | (w, ni) :: rest, v, path, timesPath, c =>
    if durSkipS cfg.maxDuration timesPath ni then
      goSNoBk bt g cfg start rest v path timesPath c
    else if w == start then
      if lenOkClose cfg.maxLength path &&
          durOkClose cfg.maxDuration (closeDurationS timesPath ni) then
        let vcs := validate_cycle g (zipEdges (path ++ [start]))
          cfg.maxDuration cfg.maxCombo
        let c' := c + (vcs.length : Int)
        if capReached cfg.maxCycles c' then ⟨vcs, c', true⟩
        else
          let out := goSNoBk bt g cfg start rest v path timesPath c'
          ⟨vcs ++ out.results, out.count, out.stopped⟩
      else goSNoBk bt g cfg start rest v path timesPath c
    else if !path.contains w && lenOkGrow cfg.maxLength path then
      let inner := bt w (some ni) (path ++ [w]) (timesPath ++ [ni]) c
      if inner.stopped then inner
      else
        let out := goSNoBk bt g cfg start rest v path timesPath inner.count
        ⟨inner.results ++ out.results, out.count, out.stopped⟩
    else goSNoBk bt g cfg start rest v path timesPath c

/-- Structural-mode `backtrack`, bookkeeping removed. -/
def backtrackSNoBk (g : TGraph) (cfg : CfgS) (start : String) :
    Nat → String → Option (Int × Int) → List String → List (Int × Int) →
    Int → BtOutC
  | 0, _, _, _, _, c => ⟨[], c, false⟩
  | fuel + 1, v, prevI, path, timesPath, c =>
    goSNoBk (fun w pi p tp s => backtrackSNoBk g cfg start fuel w pi p tp s)
      g cfg start (out_neighbors g v prevI) v path timesPath c

/-- The start-node driver of structural mode, bookkeeping removed. -/
def runStartsSNoBk (g : TGraph) (cfg : CfgS) (fuel : Nat) :
    List String → Int → List Res
  | [], _ => []
  | s :: rest, count =>
    let out := backtrackSNoBk g cfg s fuel s none [s] [] count
    if out.stopped then out.results
    else out.results ++ runStartsSNoBk g cfg fuel rest out.count

/-- `temporal_cycles` with the blocked/`B`/`unblock` bookkeeping removed. -/
def temporal_cycles_noBk (g : TGraph)
    (maxLength maxCycles maxDuration maxCombo : Option Int) : List Res :=
  let comps := nontrivialComponents g
  let ns := comps.flatMap id
  let g' := subgraphOf g ns
  runStartsSNoBk g' ⟨maxLength, maxCycles, maxDuration, maxCombo⟩ (ns.length + 1)
    (comps.flatMap id) 0

/-! ## Concrete graphs used by the claims -/

/-- Scenario-3 graph: A→B observed at 10 and 15, B→A observed at 12 and 20. -/
def twoNodeGraph : TGraph := [⟨"A", "B", [10, 15]⟩, ⟨"B", "A", [12, 20]⟩]

/-- Scenario-1 triangle: A→B at 10, B→C at 20, C→A at 30. -/
def triangleGraph : TGraph := [⟨"A", "B", [10]⟩, ⟨"B", "C", [20]⟩, ⟨"C", "A", [30]⟩]

/-- A single node carrying only a self-loop with a non-empty history. -/
def selfLoopOnlyGraph : TGraph := [⟨"A", "A", [1, 2]⟩]

/-- A two-node SCC whose node A additionally carries a self-loop. -/
def selfLoopInSCCGraph : TGraph :=
  [⟨"A", "B", [1]⟩, ⟨"B", "A", [2]⟩, ⟨"A", "A", [3]⟩]

/-- A graph with a single A→B edge (no B→A edge), for the missing-edge case
of `validate_cycle`. -/
def oneEdgeGraph : TGraph := [⟨"A", "B", [1]⟩]

/-! ## Invariant predicates -/

/-- Every timestamp history stored in the adjacency index is ascending. -/
def AdjSorted (adj : Adjacency) : Prop :=
  ∀ p ∈ adj, ∀ q ∈ p.2, List.Sorted (· ≤ ·) q.2

/-- The duration bound on an emitted timestamp sequence. -/
def durBound (md : Option Int) (ts : List Int) : Prop :=
  ∀ D, md = some D → ∀ a b, ts.head? = some a → ts.getLast? = some b → b - a ≤ D

/-- The shape invariant of an emitted realization: nonempty node sequence
whose last entry closes on the first, pairwise-distinct entries apart from
the closing one, one timestamp per edge, strictly increasing timestamps,
and the duration bound. -/
def ResOK (md : Option Int) (r : Res) : Prop :=
  r.1 ≠ [] ∧ r.1.dropLast.Nodup ∧ r.1.head? = r.1.getLast? ∧
  r.1.length = r.2.length + 1 ∧ List.Chain' (· < ·) r.2 ∧ durBound md r.2

/-- The recursion invariant of exact-mode `backtrack`. -/
def PreE (start : String) (lastTime : Option Int) (path : List String)
    (tp : List Int) : Prop :=
  path ≠ [] ∧ path.head? = some start ∧ path.Nodup ∧
  path.length = tp.length + 1 ∧ List.Chain' (· < ·) tp ∧
  (lastTime = none → tp = []) ∧
  (∀ l, lastTime = some l → tp = [] ∨ tp.getLast? = some l)

/-- The invariant carried by `validate_cycle.dfs` on the partial combo. -/
def ComboInv (prev : Option Int) (combo : List Int) : Prop :=
  List.Chain' (· < ·) combo ∧ (prev = none → combo = []) ∧
  (∀ p, prev = some p → combo = [] ∨ combo.getLast? = some p)

/-- Every realization emitted by the structural-first search is one of the
realizations `validate_cycle` returned for an elementary structural cycle. -/
def FromValidate (g : TGraph) (md mc : Option Int) (r : Res) : Prop :=
  ∃ s p, p ≠ [] ∧ p.head? = some s ∧ p.Nodup ∧
    r ∈ validate_cycle g (zipEdges (p ++ [s])) md mc

/-! ## C9: the blocking bookkeeping never influences the emitted results -/

theorem goE_noBk (cfg : Cfg) (start : String)
    (btF : String → Option Int → List String → List Int → JState → BtOut)
    (btC : String → Option Int → List String → List Int → Int → BtOutC)
    (hbt : ∀ w lt p tp (st : JState),
      (btF w lt p tp st).results = (btC w lt p tp st.count).results ∧
      (btF w lt p tp st).st.count = (btC w lt p tp st.count).count ∧
      (btF w lt p tp st).stopped = (btC w lt p tp st.count).stopped) :
    ∀ ns v path tp (st : JState) (closed : Bool),
      (goE btF cfg start ns v path tp st closed).results =
        (goENoBk btC cfg start ns v path tp st.count).results ∧
      (goE btF cfg start ns v path tp st closed).st.count =
        (goENoBk btC cfg start ns v path tp st.count).count ∧
      (goE btF cfg start ns v path tp st closed).stopped =
        (goENoBk btC cfg start ns v path tp st.count).stopped := by
  intro ns
  induction ns with
  | nil => intro v path tp st closed; simp [goE, goENoBk]
  | cons hd rest ih =>
    obtain ⟨w, t⟩ := hd
    intro v path tp st closed
    simp only [goE, goENoBk]
    split
    · exact ih v path tp st closed
    · by_cases hw : (w == start) = true
      · simp only [hw, if_true]
        by_cases hok : (lenOkClose cfg.maxLength path &&
            durOkClose cfg.maxDuration (closeDuration tp t)) = true
        · simp only [hok, if_true]
          by_cases hcap : capReached cfg.maxCycles (st.count + 1) = true
          · simp [hcap]
          · simp only [hcap, if_false, Bool.false_eq_true]
            have h := ih v path tp { st with count := st.count + 1 } true
            simp only at h
            exact ⟨by simp [h.1], by simp [h.2.1], by simp [h.2.2]⟩
        · simp only [hok, if_false, Bool.false_eq_true]
          exact ih v path tp st closed
      · simp only [hw, if_false, Bool.false_eq_true]
        split
        · have hinner := hbt w (some t) (path ++ [w]) (tp ++ [t]) st
          by_cases hstop : (btC w (some t) (path ++ [w]) (tp ++ [t]) st.count).stopped = true
          · simp only [hinner.2.2, hstop, if_true]
            exact ⟨hinner.1, hinner.2.1, by simp [hinner.2.2, hstop]⟩
          · simp only [hinner.2.2, hstop, if_false, Bool.false_eq_true]
            have h := ih v path tp (btF w (some t) (path ++ [w]) (tp ++ [t]) st).st
              (closed || !(btF w (some t) (path ++ [w]) (tp ++ [t]) st).results.isEmpty)
            rw [hinner.2.1, hinner.1] at h
            rw [hinner.1]
            exact ⟨by rw [h.1], h.2.1, h.2.2⟩
        · exact ih v path tp st closed

theorem backtrackE_noBk (adj : Adjacency) (cfg : Cfg) (start : String) :
    ∀ (fuel : Nat) (v : String) (lt : Option Int) (path : List String)
      (tp : List Int) (st : JState),
      (backtrackE adj cfg start fuel v lt path tp st).results =
        (backtrackENoBk adj cfg start fuel v lt path tp st.count).results ∧
      (backtrackE adj cfg start fuel v lt path tp st).st.count =
        (backtrackENoBk adj cfg start fuel v lt path tp st.count).count ∧
      (backtrackE adj cfg start fuel v lt path tp st).stopped =
        (backtrackENoBk adj cfg start fuel v lt path tp st.count).stopped := by
  intro fuel
  induction fuel with
  | zero => intro v lt path tp st; simp [backtrackE, backtrackENoBk]
  | succ f ih =>
    intro v lt path tp st
    simp only [backtrackE, backtrackENoBk]
    have hgo := goE_noBk cfg start _ _ (fun w lt' p tp' st' => ih w lt' p tp' st')
      (out_neighbors_ adj v lt) v path tp { st with blocked := setInsert st.blocked v }
      false
    simp only at hgo
    by_cases hstop : (goE (fun w lt' p tp' s => backtrackE adj cfg start f w lt' p tp' s)
        cfg start (out_neighbors_ adj v lt) v path tp
        { st with blocked := setInsert st.blocked v } false).stopped = true
    · simp only [hstop, if_true]
      exact ⟨hgo.1, hgo.2.1, by rw [← hgo.2.2, hstop]⟩
    · simp only [hstop, if_false, Bool.false_eq_true]
      simp only [Bool.not_eq_true] at hstop
      split
      · exact ⟨hgo.1, hgo.2.1, by rw [← hgo.2.2, hstop]⟩
      · exact ⟨hgo.1, hgo.2.1, by rw [← hgo.2.2, hstop]⟩

theorem runStartsE_noBk (adj : Adjacency) (cfg : Cfg) (fuel : Nat) :
    ∀ (starts : List String) (count : Int),
      runStartsE adj cfg fuel starts count = runStartsENoBk adj cfg fuel starts count := by
  intro starts
  induction starts with
  | nil => intro count; rfl
  | cons s rest ih =>
    intro count
    simp only [runStartsE, runStartsENoBk]
    have h := backtrackE_noBk adj cfg s fuel s none [s] [] ⟨count, [], []⟩
    simp only at h
    rw [h.1, h.2.1, h.2.2, ih]

theorem goS_noBk (g : TGraph) (cfg : CfgS) (start : String)
    (btF : String → Option (Int × Int) → List String → List (Int × Int) →
      JState → BtOutS)
    (btC : String → Option (Int × Int) → List String → List (Int × Int) →
      Int → BtOutC)
    (hbt : ∀ w pi p tp (st : JState),
      (btF w pi p tp st).results = (btC w pi p tp st.count).results ∧
      (btF w pi p tp st).st.count = (btC w pi p tp st.count).count ∧
      (btF w pi p tp st).stopped = (btC w pi p tp st.count).stopped) :
    ∀ ns v path tp (st : JState) (closed : Bool),
      (goS btF g cfg start ns v path tp st closed).results =
        (goSNoBk btC g cfg start ns v path tp st.count).results ∧
      (goS btF g cfg start ns v path tp st closed).st.count =
        (goSNoBk btC g cfg start ns v path tp st.count).count ∧
      (goS btF g cfg start ns v path tp st closed).stopped =
        (goSNoBk btC g cfg start ns v path tp st.count).stopped := by
  intro ns
  induction ns with
  | nil => intro v path tp st closed; simp [goS, goSNoBk]
  | cons hd rest ih =>
    obtain ⟨w, ni⟩ := hd
    intro v path tp st closed
    simp only [goS, goSNoBk]
    split
    · exact ih v path tp st closed
    · by_cases hw : (w == start) = true
      · simp only [hw, if_true]
        by_cases hok : (lenOkClose cfg.maxLength path &&
            durOkClose cfg.maxDuration (closeDurationS tp ni)) = true
        · simp only [hok, if_true]
          by_cases hcap : capReached cfg.maxCycles (st.count +
              ((validate_cycle g (zipEdges (path ++ [start]))
                cfg.maxDuration cfg.maxCombo).length : Int)) = true
          · simp [hcap]
          · simp only [hcap, if_false, Bool.false_eq_true]
            have h := ih v path tp
              { st with count := st.count + ((validate_cycle g (zipEdges (path ++ [start]))
                cfg.maxDuration cfg.maxCombo).length : Int) } true
            simp only at h
            exact ⟨by simp [h.1], by simp [h.2.1], by simp [h.2.2]⟩
        · simp only [hok, if_false, Bool.false_eq_true]
          exact ih v path tp st closed
      · simp only [hw, if_false, Bool.false_eq_true]
        split
        · have hinner := hbt w (some ni) (path ++ [w]) (tp ++ [ni]) st
          by_cases hstop : (btC w (some ni) (path ++ [w]) (tp ++ [ni]) st.count).stopped = true
          · simp only [hinner.2.2, hstop, if_true]
            exact ⟨hinner.1, hinner.2.1, by simp [hinner.2.2, hstop]⟩
          · simp only [hinner.2.2, hstop, if_false, Bool.false_eq_true]
            have h := ih v path tp (btF w (some ni) (path ++ [w]) (tp ++ [ni]) st).st
              (closed || (btF w (some ni) (path ++ [w]) (tp ++ [ni]) st).closedAny)
            rw [hinner.2.1] at h
            rw [hinner.1]
            exact ⟨by rw [h.1], h.2.1, h.2.2⟩
        · exact ih v path tp st closed

theorem backtrackS_noBk (g : TGraph) (cfg : CfgS) (start : String) :
    ∀ (fuel : Nat) (v : String) (pi : Option (Int × Int)) (path : List String)
      (tp : List (Int × Int)) (st : JState),
      (backtrackS g cfg start fuel v pi path tp st).results =
        (backtrackSNoBk g cfg start fuel v pi path tp st.count).results ∧
      (backtrackS g cfg start fuel v pi path tp st).st.count =
        (backtrackSNoBk g cfg start fuel v pi path tp st.count).count ∧
      (backtrackS g cfg start fuel v pi path tp st).stopped =
        (backtrackSNoBk g cfg start fuel v pi path tp st.count).stopped := by
  intro fuel
  induction fuel with
  | zero => intro v pi path tp st; simp [backtrackS, backtrackSNoBk]
  | succ f ih =>
    intro v pi path tp st
    simp only [backtrackS, backtrackSNoBk]
    have hgo := goS_noBk g cfg start _ _ (fun w pi' p tp' st' => ih w pi' p tp' st')
      (out_neighbors g v pi) v path tp { st with blocked := setInsert st.blocked v }
      false
    simp only at hgo
    by_cases hstop : (goS (fun w pi' p tp' s => backtrackS g cfg start f w pi' p tp' s)
        g cfg start (out_neighbors g v pi) v path tp
        { st with blocked := setInsert st.blocked v } false).stopped = true
    · simp only [hstop, if_true]
      exact ⟨hgo.1, hgo.2.1, by rw [← hgo.2.2, hstop]⟩
    · simp only [hstop, if_false, Bool.false_eq_true]
      simp only [Bool.not_eq_true] at hstop
      split
      · exact ⟨hgo.1, hgo.2.1, by rw [← hgo.2.2, hstop]⟩
      · exact ⟨hgo.1, hgo.2.1, by rw [← hgo.2.2, hstop]⟩

theorem runStartsS_noBk (g : TGraph) (cfg : CfgS) (fuel : Nat) :
    ∀ (starts : List String) (count : Int),
      runStartsS g cfg fuel starts count = runStartsSNoBk g cfg fuel starts count := by
  intro starts
  induction starts with
  | nil => intro count; rfl
  | cons s rest ih =>
    intro count
    simp only [runStartsS, runStartsSNoBk]
    have h := backtrackS_noBk g cfg s fuel s none [s] [] ⟨count, [], []⟩
    simp only at h
    rw [h.1, h.2.1, h.2.2, ih]

/-! ## `validate_cycle` invariants -/

theorem vloop_pres (mc : Option Int)
    (nxt : Option Int → List Int → List Res → List Res)
    (Q : List Res → Prop)
    (hnxt : ∀ p c r, Q r → Q (nxt p c r)) :
    ∀ (ts : List Int) (prev : Option Int) (combo : List Int)
      (results : List Res), Q results →
      Q (vloop mc nxt ts prev combo results) := by
  intro ts
  induction ts with
  | nil => intro prev combo results h; simpa [vloop] using h
  | cons t ts ih =>
    intro prev combo results h
    simp only [vloop]
    split
    · exact h
    · split
      · exact ih prev combo _ (hnxt _ _ _ h)
      · exact ih prev combo results h

theorem recordCombo_length_le (np : List String) (md : Option Int)
    (combo : List Int) (results : List Res) :
    (recordCombo np md combo results).length ≤ results.length + 1 := by
  unfold recordCombo
  split
  · omega
  · split
    · omega
    · simp

theorem vdfs_length_le (np : List String) (md : Option Int) (M : Int) :
    ∀ (remaining : List (List Int)) (prev : Option Int) (combo : List Int)
      (results : List Res),
      (results.length : Int) ≤ M →
      ((vdfs np md (some M) remaining prev combo results).length : Int) ≤ M := by
  intro remaining
  induction remaining with
  | nil =>
    intro prev combo results h
    simp only [vdfs]
    split
    · exact h
    · rename_i hstop
      simp only [comboStop, decide_eq_true_eq, Bool.not_eq_true] at hstop
      have := recordCombo_length_le np md combo results
      omega
  | cons ts rest ih =>
    intro prev combo results h
    simp only [vdfs]
    split
    · exact h
    · exact vloop_pres (some M) _ (fun r => ((r.length : Int) ≤ M))
        (fun p c r hr => ih p c r hr) ts prev combo results h

theorem recordCombo_nodup (np : List String) (md : Option Int)
    (combo : List Int) (results : List Res) (h : results.Nodup) :
    (recordCombo np md combo results).Nodup := by
  unfold recordCombo
  split
  · exact h
  · split
    · exact h
    · rename_i hmem
      simp only [List.nodup_append, List.nodup_cons, List.nodup_nil]
      refine ⟨h, by simp, ?_⟩
      intro x hx hx'
      simp only [List.mem_singleton] at hx'
      subst hx'
      exact hmem hx

theorem vdfs_nodup (np : List String) (md mc : Option Int) :
    ∀ (remaining : List (List Int)) (prev : Option Int) (combo : List Int)
      (results : List Res), results.Nodup →
      (vdfs np md mc remaining prev combo results).Nodup := by
  intro remaining
  induction remaining with
  | nil =>
    intro prev combo results h
    simp only [vdfs]
    split
    · exact h
    · exact recordCombo_nodup np md combo results h
  | cons ts rest ih =>
    intro prev combo results h
    simp only [vdfs]
    split
    · exact h
    · exact vloop_pres mc _ (fun r => r.Nodup)
        (fun p c r hr => ih p c r hr) ts prev combo results h

/-- C8 helper: with `max_combo = M`, `validate_cycle` returns at most `M`
realizations. -/
theorem validate_cycle_length_le (g : TGraph) (ec : List (String × String))
    (md : Option Int) (M : Int) (hM : 0 ≤ M) :
    ((validate_cycle g ec md (some M)).length : Int) ≤ M := by
  unfold validate_cycle
  split
  · simpa using hM
  · exact vdfs_length_le _ md M _ none [] [] (by simpa using hM)

/-- C8 helper: `validate_cycle` never returns duplicate
(nodeSequence, timestampSequence) pairs. -/
theorem validate_cycle_nodup (g : TGraph) (ec : List (String × String))
    (md mc : Option Int) : (validate_cycle g ec md mc).Nodup := by
  unfold validate_cycle
  split
  · simp
  · exact vdfs_nodup _ md mc _ none [] [] (by simp)

/-! ## Cycle-counter accounting and the `maxCycles` budget (C1) -/

theorem goE_count (cfg : Cfg) (start : String)
    (bt : String → Option Int → List String → List Int → JState → BtOut)
    (hbt : ∀ w lt p tp (st : JState),
      (bt w lt p tp st).st.count = st.count + ((bt w lt p tp st).results.length : Int)) :
    ∀ ns v path tp (st : JState) (closed : Bool),
      (goE bt cfg start ns v path tp st closed).st.count =
        st.count + ((goE bt cfg start ns v path tp st closed).results.length : Int) := by
  intro ns
  induction ns with
  | nil => intro v path tp st closed; simp [goE]
  | cons hd rest ih =>
    obtain ⟨w, t⟩ := hd
    intro v path tp st closed
    simp only [goE]
    split
    · exact ih v path tp st closed
    · split
      · split
        · split
          · simp
          · have h := ih v path tp { st with count := st.count + 1 } true
            simp only at h
            simp [h]
            omega
        · exact ih v path tp st closed
      · split
        · have hinner := hbt w (some t) (path ++ [w]) (tp ++ [t]) st
          split
          · exact hinner
          · have h := ih v path tp (bt w (some t) (path ++ [w]) (tp ++ [t]) st).st
              (closed || !(bt w (some t) (path ++ [w]) (tp ++ [t]) st).results.isEmpty)
            simp only [h, hinner]
            simp
            omega
        · exact ih v path tp st closed

theorem backtrackE_count (adj : Adjacency) (cfg : Cfg) (start : String) :
    ∀ (fuel : Nat) (v : String) (lt : Option Int) (path : List String)
      (tp : List Int) (st : JState),
      (backtrackE adj cfg start fuel v lt path tp st).st.count =
        st.count + ((backtrackE adj cfg start fuel v lt path tp st).results.length : Int) := by
  intro fuel
  induction fuel with
  | zero => intro v lt path tp st; simp [backtrackE]
  | succ f ih =>
    intro v lt path tp st
    simp only [backtrackE]
    have hgo := goE_count cfg start _ (fun w lt' p tp' st' => ih w lt' p tp' st')
      (out_neighbors_ adj v lt) v path tp { st with blocked := setInsert st.blocked v }
      false
    simp only at hgo
    split
    · exact hgo
    · split <;> exact hgo

/-- With a positive cycle cap `C`, the exact-mode search keeps the shared
counter at most `C`, and strictly below `C` whenever it has not stopped. -/
theorem goE_cap (cfg : Cfg) (start : String) (C : Int)
    (hC : 0 < C) (hcfg : cfg.maxCycles = some C)
    (bt : String → Option Int → List String → List Int → JState → BtOut)
    (hbt : ∀ w lt p tp (st : JState), st.count < C →
      (bt w lt p tp st).st.count ≤ C ∧
      ((bt w lt p tp st).stopped = false → (bt w lt p tp st).st.count < C)) :
    ∀ ns v path tp (st : JState) (closed : Bool), st.count < C →
      (goE bt cfg start ns v path tp st closed).st.count ≤ C ∧
      ((goE bt cfg start ns v path tp st closed).stopped = false →
        (goE bt cfg start ns v path tp st closed).st.count < C) := by
  intro ns
  induction ns with
  | nil => intro v path tp st closed h; simp [goE]; omega
  | cons hd rest ih =>
    obtain ⟨w, t⟩ := hd
    intro v path tp st closed h
    simp only [goE]
    split
    · exact ih v path tp st closed h
    · split
      · split
        · split
          · constructor
            · simp; omega
            · intro hfalse; simp at hfalse
          · rename_i hcap
            have hlt : st.count + 1 < C := by
              rw [hcfg] at hcap
              simp only [capReached, Bool.and_eq_true, bne_iff_ne, ne_eq,
                decide_eq_true_eq, Bool.not_eq_true] at hcap
              omega
            have hrec := ih v path tp { st with count := st.count + 1 } true hlt
            simpa using hrec
        · exact ih v path tp st closed h
      · split
        · have hinner := hbt w (some t) (path ++ [w]) (tp ++ [t]) st h
          split
          · exact ⟨hinner.1, fun hfalse => by simp_all⟩
          · rename_i hns
            simp only [Bool.not_eq_true] at hns
            have hrec := ih v path tp (bt w (some t) (path ++ [w]) (tp ++ [t]) st).st
              (closed || !(bt w (some t) (path ++ [w]) (tp ++ [t]) st).results.isEmpty)
              (hinner.2 hns)
            simpa using hrec
        · exact ih v path tp st closed h

theorem backtrackE_cap (adj : Adjacency) (cfg : Cfg) (start : String) (C : Int)
    (hC : 0 < C) (hcfg : cfg.maxCycles = some C) :
    ∀ (fuel : Nat) (v : String) (lt : Option Int) (path : List String)
      (tp : List Int) (st : JState), st.count < C →
      (backtrackE adj cfg start fuel v lt path tp st).st.count ≤ C ∧
      ((backtrackE adj cfg start fuel v lt path tp st).stopped = false →
        (backtrackE adj cfg start fuel v lt path tp st).st.count < C) := by
  intro fuel
  induction fuel with
  | zero => intro v lt path tp st h; simp [backtrackE]; omega
  | succ f ih =>
    intro v lt path tp st h
    simp only [backtrackE]
    have hgo := goE_cap cfg start C hC hcfg _ (fun w lt' p tp' st' => ih w lt' p tp' st')
      (out_neighbors_ adj v lt) v path tp { st with blocked := setInsert st.blocked v }
      false h
    split
    · exact ⟨hgo.1, fun hfalse => by simp_all⟩
    · rename_i hns
      simp only [Bool.not_eq_true] at hns
      split
      · exact ⟨hgo.1, fun _ => hgo.2 hns⟩
      · exact ⟨hgo.1, fun _ => hgo.2 hns⟩

theorem runStartsE_cap (adj : Adjacency) (cfg : Cfg) (fuel : Nat) (C : Int)
    (hC : 0 < C) (hcfg : cfg.maxCycles = some C) :
    ∀ (starts : List String) (count : Int), count < C →
      count + ((runStartsE adj cfg fuel starts count).length : Int) ≤ C := by
  intro starts
  induction starts with
  | nil => intro count h; simp [runStartsE]; omega
  | cons s rest ih =>
    intro count h
    simp only [runStartsE]
    have hcount := backtrackE_count adj cfg s fuel s none [s] [] ⟨count, [], []⟩
    simp only at hcount
    have hcap := backtrackE_cap adj cfg s C hC hcfg fuel s none [s] [] ⟨count, [], []⟩
      (by simpa using h)
    simp only at hcap
    split
    · omega
    · rename_i hns
      simp only [Bool.not_eq_true] at hns
      have hrec := ih (backtrackE adj cfg s fuel s none [s] [] ⟨count, [], []⟩).st.count
        (hcap.2 hns)
      simp only [List.length_append]
      push_cast
      omega

theorem goS_count (g : TGraph) (cfg : CfgS) (start : String)
    (bt : String → Option (Int × Int) → List String → List (Int × Int) → JState → BtOutS)
    (hbt : ∀ w pi p tp (st : JState),
      (bt w pi p tp st).st.count = st.count + ((bt w pi p tp st).results.length : Int)) :
    ∀ ns v path tp (st : JState) (closed : Bool),
      (goS bt g cfg start ns v path tp st closed).st.count =
        st.count + ((goS bt g cfg start ns v path tp st closed).results.length : Int) := by
  intro ns
  induction ns with
  | nil => intro v path tp st closed; simp [goS]
  | cons hd rest ih =>
    obtain ⟨w, ni⟩ := hd
    intro v path tp st closed
    simp only [goS]
    split
    · exact ih v path tp st closed
    · split
      · split
        · split
          · simp
          · have h := ih v path tp
              { st with count := st.count + ((validate_cycle g (zipEdges (path ++ [start]))
                cfg.maxDuration cfg.maxCombo).length : Int) } true
            simp only at h
            simp [h]
            omega
        · exact ih v path tp st closed
      · split
        · have hinner := hbt w (some ni) (path ++ [w]) (tp ++ [ni]) st
          split
          · exact hinner
          · have h := ih v path tp (bt w (some ni) (path ++ [w]) (tp ++ [ni]) st).st
              (closed || (bt w (some ni) (path ++ [w]) (tp ++ [ni]) st).closedAny)
            simp only [h, hinner]
            simp
            omega
        · exact ih v path tp st closed

theorem backtrackS_count (g : TGraph) (cfg : CfgS) (start : String) :
    ∀ (fuel : Nat) (v : String) (pi : Option (Int × Int)) (path : List String)
      (tp : List (Int × Int)) (st : JState),
      (backtrackS g cfg start fuel v pi path tp st).st.count =
        st.count + ((backtrackS g cfg start fuel v pi path tp st).results.length : Int) := by
  intro fuel
  induction fuel with
  | zero => intro v pi path tp st; simp [backtrackS]
  | succ f ih =>
    intro v pi path tp st
    simp only [backtrackS]
    have hgo := goS_count g cfg start _ (fun w pi' p tp' st' => ih w pi' p tp' st')
      (out_neighbors g v pi) v path tp { st with blocked := setInsert st.blocked v }
      false
    simp only at hgo
    split
    · exact hgo
    · split <;> exact hgo

/-- With a positive cycle cap `C` and a combination cap `M`, the
structural-first search keeps the shared counter at most `C - 1 + M`
(the final validated batch may overshoot the cap by at most `M - 1`), and
strictly below `C` whenever it has not stopped. -/
theorem goS_cap (g : TGraph) (cfg : CfgS) (start : String) (C M : Int)
    (hC : 0 < C) (hM : 0 ≤ M) (hcfg : cfg.maxCycles = some C)
    (hcombo : cfg.maxCombo = some M)
    (bt : String → Option (Int × Int) → List String → List (Int × Int) → JState → BtOutS)
    (hbt : ∀ w pi p tp (st : JState), st.count < C →
      (bt w pi p tp st).st.count ≤ C - 1 + M ∧
      ((bt w pi p tp st).stopped = false → (bt w pi p tp st).st.count < C)) :
    ∀ ns v path tp (st : JState) (closed : Bool), st.count < C →
      (goS bt g cfg start ns v path tp st closed).st.count ≤ C - 1 + M ∧
      ((goS bt g cfg start ns v path tp st closed).stopped = false →
        (goS bt g cfg start ns v path tp st closed).st.count < C) := by
  intro ns
  induction ns with
  | nil => intro v path tp st closed h; simp [goS]; omega
  | cons hd rest ih =>
    obtain ⟨w, ni⟩ := hd
    intro v path tp st closed h
    simp only [goS]
    split
    · exact ih v path tp st closed h
    · split
      · split
        · have hvlen : ((validate_cycle g (zipEdges (path ++ [start]))
              cfg.maxDuration cfg.maxCombo).length : Int) ≤ M := by
            rw [hcombo]
            exact validate_cycle_length_le g _ cfg.maxDuration M hM
          split
          · constructor
            · simp; omega
            · intro hfalse; simp at hfalse
          · rename_i hcap
            have hlt : st.count + ((validate_cycle g (zipEdges (path ++ [start]))
                cfg.maxDuration cfg.maxCombo).length : Int) < C := by
              rw [hcfg] at hcap
              simp only [capReached, Bool.and_eq_true, bne_iff_ne, ne_eq,
                decide_eq_true_eq, Bool.not_eq_true] at hcap
              omega
            have hrec := ih v path tp
              { st with count := st.count + ((validate_cycle g (zipEdges (path ++ [start]))
                cfg.maxDuration cfg.maxCombo).length : Int) } true hlt
            simpa using hrec
        · exact ih v path tp st closed h
      · split
        · have hinner := hbt w (some ni) (path ++ [w]) (tp ++ [ni]) st h
          split
          · exact ⟨hinner.1, fun hfalse => by simp_all⟩
          · rename_i hns
            simp only [Bool.not_eq_true] at hns
            have hrec := ih v path tp (bt w (some ni) (path ++ [w]) (tp ++ [ni]) st).st
              (closed || (bt w (some ni) (path ++ [w]) (tp ++ [ni]) st).closedAny)
              (hinner.2 hns)
            simpa using hrec
        · exact ih v path tp st closed h

theorem backtrackS_cap (g : TGraph) (cfg : CfgS) (start : String) (C M : Int)
    (hC : 0 < C) (hM : 0 ≤ M) (hcfg : cfg.maxCycles = some C)
    (hcombo : cfg.maxCombo = some M) :
    ∀ (fuel : Nat) (v : String) (pi : Option (Int × Int)) (path : List String)
      (tp : List (Int × Int)) (st : JState), st.count < C →
      (backtrackS g cfg start fuel v pi path tp st).st.count ≤ C - 1 + M ∧
      ((backtrackS g cfg start fuel v pi path tp st).stopped = false →
        (backtrackS g cfg start fuel v pi path tp st).st.count < C) := by
  intro fuel
  induction fuel with
  | zero => intro v pi path tp st h; simp [backtrackS]; omega
  | succ f ih =>
    intro v pi path tp st h
    simp only [backtrackS]
    have hgo := goS_cap g cfg start C M hC hM hcfg hcombo _
      (fun w pi' p tp' st' => ih w pi' p tp' st')
      (out_neighbors g v pi) v path tp { st with blocked := setInsert st.blocked v }
      false h
    split
    · exact ⟨hgo.1, fun hfalse => by simp_all⟩
    · rename_i hns
      simp only [Bool.not_eq_true] at hns
      split
      · exact ⟨hgo.1, fun _ => hgo.2 hns⟩
      · exact ⟨hgo.1, fun _ => hgo.2 hns⟩

theorem runStartsS_cap (g : TGraph) (cfg : CfgS) (fuel : Nat) (C M : Int)
    (hC : 0 < C) (hM : 0 ≤ M) (hcfg : cfg.maxCycles = some C)
    (hcombo : cfg.maxCombo = some M) :
    ∀ (starts : List String) (count : Int), count < C →
      count + ((runStartsS g cfg fuel starts count).length : Int) ≤ C - 1 + M := by
  intro starts
  induction starts with
  | nil => intro count h; simp [runStartsS]; omega
  | cons s rest ih =>
    intro count h
    simp only [runStartsS]
    have hcount := backtrackS_count g cfg s fuel s none [s] [] ⟨count, [], []⟩
    simp only at hcount
    have hcap := backtrackS_cap g cfg s C M hC hM hcfg hcombo fuel s none [s] []
      ⟨count, [], []⟩ (by simpa using h)
    simp only at hcap
    split
    · omega
    · rename_i hns
      simp only [Bool.not_eq_true] at hns
      have hrec := ih (backtrackS g cfg s fuel s none [s] [] ⟨count, [], []⟩).st.count
        (hcap.2 hns)
      simp only [List.length_append]
      push_cast
      omega

/-! ## Shape and ordering invariants of emitted realizations (C4, C5, C6) -/

theorem sorted_dropWhile_gt (p : Int) :
    ∀ (l : List Int), l.Sorted (· ≤ ·) →
      ∀ t ∈ l.dropWhile (fun x => decide (x ≤ p)), p < t := by
  intro l
  induction l with
  | nil => intro _ t ht; simp at ht
  | cons x xs ih =>
    intro hs t ht
    rw [List.dropWhile_cons] at ht
    by_cases hx : x ≤ p
    · rw [if_pos (by simpa using hx)] at ht
      exact ih (List.sorted_cons.mp hs).2 t ht
    · rw [if_neg (by simpa using hx)] at ht
      push_neg at hx
      rcases List.mem_cons.mp ht with rfl | ht'
      · exact hx
      · exact lt_of_lt_of_le hx ((List.sorted_cons.mp hs).1 t ht')

theorem adjGet_subset (adj : Adjacency) (v : String) :
    ∀ q ∈ adjGet adj v, ∃ pr ∈ adj, q ∈ pr.2 := by
  intro q hq
  unfold adjGet dictGet at hq
  split at hq
  · rename_i p hp
    exact ⟨p, List.mem_of_find?_eq_some hp, hq⟩
  · simp at hq

/-- On a sorted adjacency, every neighbor produced under a previous
timestamp carries a strictly later timestamp. -/
theorem out_neighbors_gt (adj : Adjacency) (hadj : AdjSorted adj) (v : String)
    (l : Int) (w : String) (t : Int)
    (h : (w, t) ∈ out_neighbors_ adj v (some l)) : l < t := by
  unfold out_neighbors_ at h
  simp only [List.mem_flatMap, List.mem_map] at h
  obtain ⟨q, hq, t', ht', heq⟩ := h
  obtain ⟨pr, hpr, hq2⟩ := adjGet_subset adj v q hq
  have hsorted := hadj pr hpr q hq2
  have hgt := sorted_dropWhile_gt l q.2 hsorted t' ht'
  cases heq
  exact hgt

theorem mem_dictInsert {α β : Type} [BEq α] (k : α) (v : β) :
    ∀ (d : List (α × β)), ∀ p ∈ dictInsert d k v, p ∈ d ∨ p = (k, v) := by
  intro d
  induction d with
  | nil => intro p hp; simp [dictInsert] at hp; right; exact hp
  | cons kv rest ih =>
    intro p hp
    unfold dictInsert at hp
    split at hp
    · rcases List.mem_cons.mp hp with rfl | h
      · right; rfl
      · left; exact List.mem_cons_of_mem _ h
    · rcases List.mem_cons.mp hp with rfl | h
      · left; exact List.mem_cons_self _ _
      · rcases ih p h with h' | h'
        · left; exact List.mem_cons_of_mem _ h'
        · right; exact h'

theorem foldl_preserve {α β : Type} (P : β → Prop) (f : β → α → β)
    (hf : ∀ b a, P b → P (f b a)) :
    ∀ (l : List α) (b : β), P b → P (l.foldl f b) := by
  intro l
  induction l with
  | nil => intro b h; exact h
  | cons x xs ih => intro b h; exact ih (f b x) (hf b x h)

theorem buildAdjacency_sorted (g : TGraph) : AdjSorted (buildAdjacency g) := by
  unfold buildAdjacency
  apply foldl_preserve AdjSorted _ _ (nodesOf g) [] (by intro p hp; simp at hp)
  intro adj n hadj
  apply foldl_preserve AdjSorted _ _ _ adj hadj
  intro adj' e hadj'
  dsimp only
  split
  · exact hadj'
  · intro p hp q hq
    rcases mem_dictInsert _ _ _ p hp with hmem | rfl
    · exact hadj' p hmem q hq
    · rcases mem_dictInsert _ _ _ q hq with hmem' | rfl
      · obtain ⟨pr, hpr, hq2⟩ := adjGet_subset adj' n q hmem'
        exact hadj' pr hpr q hq2
      · exact List.sorted_insertionSort _ _

theorem goE_resOK (cfg : Cfg) (start : String)
    (bt : String → Option Int → List String → List Int → JState → BtOut)
    (hbt : ∀ w lt p tp (st : JState), PreE start lt p tp →
      ∀ r ∈ (bt w lt p tp st).results, ResOK cfg.maxDuration r) :
    ∀ ns v path tp (st : JState) (closed : Bool),
      path ≠ [] → path.head? = some start → path.Nodup →
      path.length = tp.length + 1 → List.Chain' (· < ·) tp →
      (∀ w t, (w, t) ∈ ns → List.Chain' (· < ·) (tp ++ [t])) →
      ∀ r ∈ (goE bt cfg start ns v path tp st closed).results,
        ResOK cfg.maxDuration r := by
  intro ns
  induction ns with
  | nil => intro v path tp st closed _ _ _ _ _ _ r hr; simp [goE] at hr
  | cons hd rest ih =>
    obtain ⟨w, t⟩ := hd
    intro v path tp st closed hne hhead hnodup hlen hchain hns r hr
    have hrest : ∀ w' t', (w', t') ∈ rest → List.Chain' (· < ·) (tp ++ [t']) :=
      fun w' t' h => hns w' t' (List.mem_cons_of_mem _ h)
    have hthis : List.Chain' (· < ·) (tp ++ [t]) := hns w t (List.mem_cons_self _ _)
    simp only [goE] at hr
    split at hr
    · exact ih v path tp st closed hne hhead hnodup hlen hchain hrest r hr
    · split at hr
      · split at hr
        · rename_i hweq hok
          have hresOK : ResOK cfg.maxDuration (path ++ [start], tp ++ [t]) := by
            have hgl : (path ++ [start]).getLast? = some start := List.getLast?_concat _
            have hhd : (path ++ [start]).head? = some start := by
              rcases path with _ | ⟨p0, prest⟩
              · exact absurd rfl hne
              · simpa using hhead
            refine ⟨by simp, by simpa using hnodup, hhd.trans hgl.symm,
              by simp; omega, hthis, ?_⟩
            intro D hD a b hab hb
            rw [Bool.and_eq_true] at hok
            have hdur := hok.2
            unfold durOkClose at hdur
            rw [hD] at hdur
            simp only [decide_eq_true_eq] at hdur
            rw [List.getLast?_concat] at hb
            rcases tp with _ | ⟨t0, trest⟩
            · simp only [List.nil_append, List.head?_cons, Option.some.injEq] at hab
              cases hab; cases hb
              simpa [closeDuration] using hdur
            · simp only [List.cons_append, List.head?_cons, Option.some.injEq] at hab
              cases hab; cases hb
              simpa [closeDuration] using hdur
          split at hr
          · simp only [List.mem_singleton] at hr
            subst hr
            exact hresOK
          · rcases List.mem_cons.mp hr with rfl | hr'
            · exact hresOK
            · exact ih v path tp _ true hne hhead hnodup hlen hchain hrest r hr'
        · exact ih v path tp st closed hne hhead hnodup hlen hchain hrest r hr
      · split at hr
        · rename_i hwne hgrow
          rw [Bool.and_eq_true, Bool.not_eq_true'] at hgrow
          have hwmem : w ∉ path := by
            intro hmem
            have h1 : path.contains w = true := by
              simpa [List.contains] using List.elem_eq_true_of_mem hmem
            rw [hgrow.1] at h1
            exact Bool.false_ne_true h1
          have hpre : PreE start (some t) (path ++ [w]) (tp ++ [t]) := by
            refine ⟨by simp, ?_, ?_, by simp; omega, hthis, by simp, ?_⟩
            · rcases path with _ | ⟨p0, prest⟩
              · exact absurd rfl hne
              · simpa using hhead
            · exact List.nodup_append.mpr ⟨hnodup, by simp,
                by simpa [List.disjoint_singleton] using hwmem⟩
            · intro l hl
              cases hl
              right
              simp
          split at hr
          · exact hbt w (some t) (path ++ [w]) (tp ++ [t]) st hpre r hr
          · rcases List.mem_append.mp hr with hr' | hr'
            · exact hbt w (some t) (path ++ [w]) (tp ++ [t]) st hpre r hr'
            · exact ih v path tp _ _ hne hhead hnodup hlen hchain hrest r hr'
        · exact ih v path tp st closed hne hhead hnodup hlen hchain hrest r hr

theorem backtrackE_resOK (adj : Adjacency) (cfg : Cfg) (start : String)
    (hadj : AdjSorted adj) :
    ∀ (fuel : Nat) (v : String) (lt : Option Int) (path : List String)
      (tp : List Int) (st : JState), PreE start lt path tp →
      ∀ r ∈ (backtrackE adj cfg start fuel v lt path tp st).results,
        ResOK cfg.maxDuration r := by
  intro fuel
  induction fuel with
  | zero => intro v lt path tp st _ r hr; simp [backtrackE] at hr
  | succ f ih =>
    intro v lt path tp st hpre r hr
    obtain ⟨hne, hhead, hnodup, hlen, hchain, hnone, hsome⟩ := hpre
    have hns : ∀ w t, (w, t) ∈ out_neighbors_ adj v lt →
        List.Chain' (· < ·) (tp ++ [t]) := by
      intro w t hmem
      cases lt with
      | none => rw [hnone rfl]; simp
      | some l =>
        have hgt := out_neighbors_gt adj hadj v l w t hmem
        rcases hsome l rfl with rfl | hlast
        · simp
        · exact List.chain'_append.mpr ⟨hchain, by simp,
            fun x hx y hy => by
              rw [hlast] at hx
              simp only [Option.mem_def, Option.some.injEq] at hx
              simp only [List.head?_cons, Option.mem_def, Option.some.injEq] at hy
              subst hx; subst hy; exact hgt⟩
    simp only [backtrackE] at hr
    have hgo := goE_resOK cfg start _
      (fun w lt' p tp' st' hpre' => ih w lt' p tp' st' hpre')
      (out_neighbors_ adj v lt) v path tp { st with blocked := setInsert st.blocked v }
      false hne hhead hnodup hlen hchain hns
    split at hr
    · exact hgo r hr
    · split at hr <;> exact hgo r hr

theorem runStartsE_resOK (adj : Adjacency) (cfg : Cfg) (fuel : Nat)
    (hadj : AdjSorted adj) :
    ∀ (starts : List String) (count : Int),
      ∀ r ∈ runStartsE adj cfg fuel starts count, ResOK cfg.maxDuration r := by
  intro starts
  induction starts with
  | nil => intro count r hr; simp [runStartsE] at hr
  | cons s rest ih =>
    intro count r hr
    simp only [runStartsE] at hr
    have hpre : PreE s none [s] [] :=
      ⟨by simp, by simp, by simp, by simp, by simp, fun _ => rfl, by simp⟩
    have hbt := backtrackE_resOK adj cfg s hadj fuel s none [s] []
      ⟨count, [], []⟩ hpre
    split at hr
    · exact hbt r hr
    · rcases List.mem_append.mp hr with hr' | hr'
      · exact hbt r hr'
      · exact ih _ r hr'

/-- Every realization emitted by exact-mode `temporal_cycles_` satisfies the
shape, strict-monotonicity and duration invariants. -/
theorem temporal_cycles_resOK (g : TGraph)
    (maxLength maxCycles maxDuration : Option Int) :
    ∀ r ∈ temporal_cycles_ g maxLength maxCycles maxDuration,
      ResOK maxDuration r := by
  intro r hr
  unfold temporal_cycles_ at hr
  exact runStartsE_resOK _ ⟨maxLength, maxCycles, maxDuration⟩ _
    (buildAdjacency_sorted _) _ 0 r hr

theorem getLast?_cons_eq_getLastD {α : Type} (a : α) (l : List α) :
    (a :: l).getLast? = some (l.getLastD a) := by
  rw [List.getLastD_eq_getLast?]
  cases h : l.getLast? with
  | none =>
    rw [List.getLast?_eq_none_iff] at h
    subst h
    simp
  | some b => simp [List.getLast?_cons, h]

theorem vloop_inv (mc : Option Int)
    (nxt : Option Int → List Int → List Res → List Res)
    (P : Res → Prop) (prev : Option Int) (combo : List Int)
    (hnxt : ∀ t (results : List Res), tGt prev t = true →
      (∀ r ∈ results, P r) → ∀ r ∈ nxt (some t) (combo ++ [t]) results, P r) :
    ∀ (ts : List Int) (results : List Res), (∀ r ∈ results, P r) →
      ∀ r ∈ vloop mc nxt ts prev combo results, P r := by
  intro ts
  induction ts with
  | nil => intro results h r hr; simpa [vloop] using h r hr
  | cons t ts ih =>
    intro results h r hr
    simp only [vloop] at hr
    split at hr
    · exact h r hr
    · split at hr
      · rename_i ht
        exact ih _ (hnxt t results ht h) r hr
      · exact ih results h r hr

theorem recordCombo_inv (np : List String) (md : Option Int)
    (combo : List Int) (results : List Res) (P : Res → Prop)
    (hres : ∀ r ∈ results, P r)
    (hnew : comboDurFail md combo = false → P (np, combo)) :
    ∀ r ∈ recordCombo np md combo results, P r := by
  intro r hr
  unfold recordCombo at hr
  split at hr
  · exact hres r hr
  · rename_i hfail
    rw [Bool.not_eq_true] at hfail
    split at hr
    · exact hres r hr
    · rcases List.mem_append.mp hr with h' | h'
      · exact hres r h'
      · simp only [List.mem_singleton] at h'
        subst h'
        exact hnew hfail

theorem vdfs_resP (np : List String) (md mc : Option Int) (N : Nat) :
    ∀ (remaining : List (List Int)) (prev : Option Int) (combo : List Int)
      (results : List Res),
      ComboInv prev combo →
      combo.length + remaining.length = N →
      (∀ r ∈ results, r.1 = np ∧ List.Chain' (· < ·) r.2 ∧
        r.2.length = N ∧ durBound md r.2) →
      ∀ r ∈ vdfs np md mc remaining prev combo results,
        r.1 = np ∧ List.Chain' (· < ·) r.2 ∧ r.2.length = N ∧ durBound md r.2 := by
  intro remaining
  induction remaining with
  | nil =>
    intro prev combo results hci hlen hres r hr
    simp only [vdfs] at hr
    split at hr
    · exact hres r hr
    · refine recordCombo_inv np md combo results _ hres ?_ r hr
      intro hfail
      refine ⟨rfl, hci.1, by simpa using hlen, ?_⟩
      intro D hD a b ha hb
      rw [hD] at hfail
      rcases combo with _ | ⟨c0, cs⟩
      · simp at ha
      · simp only [List.head?_cons, Option.some.injEq] at ha
        rw [getLast?_cons_eq_getLastD] at hb
        cases ha; cases hb
        simp only [comboDurFail, decide_eq_false_iff_not, not_lt] at hfail
        exact hfail
  | cons ts rest ih =>
    intro prev combo results hci hlen hres r hr
    simp only [vdfs] at hr
    split at hr
    · exact hres r hr
    · refine vloop_inv mc _ _ prev combo ?_ ts results hres r hr
      intro t results' ht hres'
      have hci' : ComboInv (some t) (combo ++ [t]) := by
        refine ⟨?_, by simp, ?_⟩
        · rcases hci with ⟨hchain, hnone, hsome⟩
          cases prev with
          | none => rw [hnone rfl]; simp
          | some p =>
            have hpt : p < t := by simpa [tGt] using ht
            rcases hsome p rfl with rfl | hlast
            · simp
            · exact List.chain'_append.mpr ⟨hchain, by simp,
                fun x hx y hy => by
                  rw [hlast] at hx
                  simp only [Option.mem_def, Option.some.injEq] at hx
                  simp only [List.head?_cons, Option.mem_def, Option.some.injEq] at hy
                  subst hx; subst hy; exact hpt⟩
        · intro p hp
          cases hp
          right
          simp
      refine ih (some t) (combo ++ [t]) results' hci' ?_ hres'
      simp at hlen ⊢
      omega

theorem buildTimeLists_length (g : TGraph) :
    ∀ (ec : List (String × String)) (tls : List (List Int)),
      buildTimeLists g ec = some tls → tls.length = ec.length := by
  intro ec
  induction ec with
  | nil => intro tls h; simp only [buildTimeLists, Option.some.injEq] at h; subst h; rfl
  | cons e rest ih =>
    intro tls h
    obtain ⟨s, d⟩ := e
    simp only [buildTimeLists] at h
    split at h
    · exact absurd h (by simp)
    · split at h
      · exact absurd h (by simp)
      · split at h
        · exact absurd h (by simp)
        · rename_i ls hls
          simp only [Option.some.injEq] at h
          subst h
          simp [ih ls hls]

/-- Every realization returned by `validate_cycle` has the structural
cycle's node path, one strictly increasing timestamp per edge, and obeys the
duration bound. -/
theorem validate_cycle_resP (g : TGraph) (ec : List (String × String))
    (md mc : Option Int) :
    ∀ r ∈ validate_cycle g ec md mc,
      r.1 = nodePathOf ec ∧ List.Chain' (· < ·) r.2 ∧
      r.2.length = ec.length ∧ durBound md r.2 := by
  intro r hr
  unfold validate_cycle at hr
  split at hr
  · simp at hr
  · rename_i tls htls
    have hlen := buildTimeLists_length g ec tls htls
    have := vdfs_resP (nodePathOf ec) md mc ec.length tls none [] []
      ⟨by simp, fun _ => rfl, by simp⟩ (by simpa using hlen) (by simp) r hr
    exact this

theorem map_snd_zipEdges (ns : List String) :
    List.map Prod.snd (zipEdges ns) = ns.tail := by
  cases ns with
  | nil => rfl
  | cons a l =>
    unfold zipEdges
    exact List.map_snd_zip (a :: l) l (by simp)

theorem nodePathOf_zipEdges (ns : List String) (h : 2 ≤ ns.length) :
    nodePathOf (zipEdges ns) = ns := by
  rcases ns with _ | ⟨a, _ | ⟨b, l⟩⟩
  · simp at h
  · simp at h
  · have hz : zipEdges (a :: b :: l) = (a, b) :: zipEdges (b :: l) := by
      simp [zipEdges]
    rw [hz]
    show a :: List.map Prod.snd ((a, b) :: zipEdges (b :: l)) = a :: b :: l
    rw [← hz, map_snd_zipEdges]
    rfl

theorem zipEdges_length (ns : List String) :
    (zipEdges ns).length = ns.length - 1 := by
  cases ns with
  | nil => rfl
  | cons a l => simp [zipEdges]

theorem goS_origin (g : TGraph) (cfg : CfgS) (start : String)
    (bt : String → Option (Int × Int) → List String → List (Int × Int) →
      JState → BtOutS)
    (hbt : ∀ w pi p tp (st : JState), p ≠ [] → p.head? = some start → p.Nodup →
      ∀ r ∈ (bt w pi p tp st).results,
        FromValidate g cfg.maxDuration cfg.maxCombo r) :
    ∀ ns v path tp (st : JState) (closed : Bool),
      path ≠ [] → path.head? = some start → path.Nodup →
      ∀ r ∈ (goS bt g cfg start ns v path tp st closed).results,
        FromValidate g cfg.maxDuration cfg.maxCombo r := by
  intro ns
  induction ns with
  | nil => intro v path tp st closed _ _ _ r hr; simp [goS] at hr
  | cons hd rest ih =>
    obtain ⟨w, ni⟩ := hd
    intro v path tp st closed hne hhead hnodup r hr
    simp only [goS] at hr
    split at hr
    · exact ih v path tp st closed hne hhead hnodup r hr
    · split at hr
      · split at hr
        · have hfrom : ∀ r' ∈ validate_cycle g (zipEdges (path ++ [start]))
              cfg.maxDuration cfg.maxCombo,
              FromValidate g cfg.maxDuration cfg.maxCombo r' :=
            fun r' hr' => ⟨start, path, hne, hhead, hnodup, hr'⟩
          split at hr
          · exact hfrom r hr
          · rcases List.mem_append.mp hr with hr' | hr'
            · exact hfrom r hr'
            · exact ih v path tp _ true hne hhead hnodup r hr'
        · exact ih v path tp st closed hne hhead hnodup r hr
      · split at hr
        · rename_i hwne hgrow
          rw [Bool.and_eq_true, Bool.not_eq_true'] at hgrow
          have hwmem : w ∉ path := by
            intro hmem
            have h1 : path.contains w = true := by
              simpa [List.contains] using List.elem_eq_true_of_mem hmem
            rw [hgrow.1] at h1
            exact Bool.false_ne_true h1
          have hne' : path ++ [w] ≠ [] := by simp
          have hhead' : (path ++ [w]).head? = some start := by
            rcases path with _ | ⟨p0, prest⟩
            · exact absurd rfl hne
            · simpa using hhead
          have hnodup' : (path ++ [w]).Nodup :=
            List.nodup_append.mpr ⟨hnodup, by simp,
              by simpa [List.disjoint_singleton] using hwmem⟩
          split at hr
          · exact hbt w (some ni) (path ++ [w]) (tp ++ [ni]) st hne' hhead' hnodup' r hr
          · rcases List.mem_append.mp hr with hr' | hr'
            · exact hbt w (some ni) (path ++ [w]) (tp ++ [ni]) st hne' hhead' hnodup' r hr'
            · exact ih v path tp _ _ hne hhead hnodup r hr'
        · exact ih v path tp st closed hne hhead hnodup r hr

theorem backtrackS_origin (g : TGraph) (cfg : CfgS) (start : String) :
    ∀ (fuel : Nat) (v : String) (pi : Option (Int × Int)) (path : List String)
      (tp : List (Int × Int)) (st : JState),
      path ≠ [] → path.head? = some start → path.Nodup →
      ∀ r ∈ (backtrackS g cfg start fuel v pi path tp st).results,
        FromValidate g cfg.maxDuration cfg.maxCombo r := by
  intro fuel
  induction fuel with
  | zero => intro v pi path tp st _ _ _ r hr; simp [backtrackS] at hr
  | succ f ih =>
    intro v pi path tp st hne hhead hnodup r hr
    simp only [backtrackS] at hr
    have hgo := goS_origin g cfg start _
      (fun w pi' p tp' st' h1 h2 h3 => ih w pi' p tp' st' h1 h2 h3)
      (out_neighbors g v pi) v path tp { st with blocked := setInsert st.blocked v }
      false hne hhead hnodup
    split at hr
    · exact hgo r hr
    · split at hr <;> exact hgo r hr

theorem runStartsS_origin (g : TGraph) (cfg : CfgS) (fuel : Nat) :
    ∀ (starts : List String) (count : Int),
      ∀ r ∈ runStartsS g cfg fuel starts count,
        FromValidate g cfg.maxDuration cfg.maxCombo r := by
  intro starts
  induction starts with
  | nil => intro count r hr; simp [runStartsS] at hr
  | cons s rest ih =>
    intro count r hr
    simp only [runStartsS] at hr
    have hbt := backtrackS_origin g cfg s fuel s none [s] [] ⟨count, [], []⟩
      (by simp) (by simp) (by simp)
    split at hr
    · exact hbt r hr
    · rcases List.mem_append.mp hr with hr' | hr'
      · exact hbt r hr'
      · exact ih _ r hr'

/-- Every realization emitted by structural-first `temporal_cycles` satisfies
the shape, strict-monotonicity and duration invariants. -/
theorem temporal_cycles_S_resOK (g : TGraph)
    (maxLength maxCycles maxDuration maxCombo : Option Int) :
    ∀ r ∈ temporal_cycles g maxLength maxCycles maxDuration maxCombo,
      ResOK maxDuration r := by
  intro r hr
  unfold temporal_cycles at hr
  have hfrom := runStartsS_origin _ ⟨maxLength, maxCycles, maxDuration, maxCombo⟩
    _ _ 0 r hr
  obtain ⟨s, p, hne, hhead, hnodup, hmem⟩ := hfrom
  have hP := validate_cycle_resP _ (zipEdges (p ++ [s])) maxDuration maxCombo r hmem
  have hlen2 : 2 ≤ (p ++ [s]).length := by
    rcases p with _ | ⟨p0, prest⟩
    · exact absurd rfl hne
    · simp
  have hnp : r.1 = p ++ [s] := by
    rw [hP.1, nodePathOf_zipEdges _ hlen2]
  have hlen : r.2.length = p.length := by
    rw [hP.2.2.1, zipEdges_length]
    simp
  refine ⟨by rw [hnp]; simp, ?_, ?_, ?_, hP.2.1, hP.2.2.2⟩
  · rw [hnp]
    simpa using hnodup
  · rw [hnp]
    have hgl : (p ++ [s]).getLast? = some s := List.getLast?_concat _
    have hhd : (p ++ [s]).head? = some s := by
      rcases p with _ | ⟨p0, prest⟩
      · exact absurd rfl hne
      · simpa using hhead
    rw [hgl, hhd]
  · rw [hnp, hlen]
    simp

/-! ## Missing-edge / empty-history behaviour of `validate_cycle` (C7) -/

theorem buildTimeLists_none (g : TGraph) :
    ∀ (ec : List (String × String)) (s d : String), (s, d) ∈ ec →
      (∀ e, edgeLookup g s d = some e → e.history = []) →
      buildTimeLists g ec = none := by
  intro ec
  induction ec with
  | nil => intro s d hmem _; simp at hmem
  | cons hd rest ih =>
    obtain ⟨s', d'⟩ := hd
    intro s d hmem hbad
    rcases List.mem_cons.mp hmem with heq | hmem'
    · rw [Prod.mk.injEq] at heq
      obtain ⟨rfl, rfl⟩ := heq
      simp only [buildTimeLists]
      cases hlk : edgeLookup g s d with
      | none => simp
      | some e => simp [hbad e hlk]
    · simp only [buildTimeLists]
      cases hlk : edgeLookup g s' d' with
      | none => simp
      | some e =>
        simp only
        split
        · rfl
        · simp [ih s d hmem' hbad]

/-- The shape facts of C5, derived from `ResOK`. -/
theorem resOK_shape (md : Option Int) (r : Res) (h : ResOK md r) :
    r.1.dropLast.Nodup ∧ r.1.head? = r.1.getLast? ∧
    r.1.length = r.1.dropLast.length + 1 ∧ r.2.length = r.1.dropLast.length := by
  obtain ⟨hne, hnodup, hhl, hlen, _, _⟩ := h
  have hd : r.1.dropLast.length = r.1.length - 1 := List.length_dropLast _
  have hpos : 0 < r.1.length := List.length_pos.mpr hne
  exact ⟨hnodup, hhl, by omega, by omega⟩

/-! ## The claims -/

/-- C1, counterexample: with `maxCycles = 1` set, the structural-first
search on the scenario-3 graph emits three realizations — the whole batch
validated from the structural cycle that crossed the cap — not at most one. -/
theorem claim_C1_counterexample :
    (temporal_cycles twoNodeGraph none (some 1) none none).length = 3 := by
  decide

/-- C1 (amended): with `maxCycles = C ≥ 1` set, exact-mode `temporal_cycles_`
emits at most `C` realizations in total and nothing after the `C`-th; the
structural-first `temporal_cycles` stops with the per-structural-cycle batch
that reaches the cap, so with `maxCombo = M` it emits at most `C - 1 + M`
realizations (without `maxCombo` the overshoot of the final batch is
unbounded). -/
theorem claim_C1 (g : TGraph) (ml md : Option Int) (C M : Int)
    (hC : 1 ≤ C) (hM : 0 ≤ M) :
    ((temporal_cycles_ g ml (some C) md).length : Int) ≤ C ∧
    ((temporal_cycles g ml (some C) md (some M)).length : Int) ≤ C - 1 + M := by
  constructor
  · have h := runStartsE_cap
      (buildAdjacency (subgraphOf g ((nontrivialComponents g).flatMap id)))
      ⟨ml, some C, md⟩ (((nontrivialComponents g).flatMap id).length + 1) C
      (by omega) rfl ((nontrivialComponents g).flatMap id) 0 (by omega)
    show ((runStartsE
      (buildAdjacency (subgraphOf g ((nontrivialComponents g).flatMap id)))
      ⟨ml, some C, md⟩ (((nontrivialComponents g).flatMap id).length + 1)
      ((nontrivialComponents g).flatMap id) 0).length : Int) ≤ C
    omega
  · have h := runStartsS_cap (subgraphOf g ((nontrivialComponents g).flatMap id))
      ⟨ml, some C, md, some M⟩ (((nontrivialComponents g).flatMap id).length + 1)
      C M (by omega) hM rfl rfl ((nontrivialComponents g).flatMap id) 0 (by omega)
    show ((runStartsS (subgraphOf g ((nontrivialComponents g).flatMap id))
      ⟨ml, some C, md, some M⟩ (((nontrivialComponents g).flatMap id).length + 1)
      ((nontrivialComponents g).flatMap id) 0).length : Int) ≤ C - 1 + M
    omega

/-- C1, witness at `C = 1`, `M = 1` on the scenario-3 graph. -/
theorem claim_C1_witness :
    (1 : Int) ≤ 1 ∧ (0 : Int) ≤ 1 ∧
    ((temporal_cycles_ twoNodeGraph none (some 1) none).length : Int) ≤ 1 ∧
    ((temporal_cycles twoNodeGraph none (some 1) none (some 1)).length : Int) ≤
      1 - 1 + 1 :=
  ⟨by decide, by decide,
    (claim_C1 twoNodeGraph none none 1 1 (by decide) (by decide)).1,
    (claim_C1 twoNodeGraph none none 1 1 (by decide) (by decide)).2⟩

/-- C2, counterexample: the exact search on the scenario-3 graph also emits
([B,A,B],[12,15]) — the same cycle rediscovered from start node B — so it
does not emit the three listed realizations "and no others". -/
theorem claim_C2_counterexample :
    (["B", "A", "B"], ([12, 15] : List Int)) ∈
      temporal_cycles_ twoNodeGraph none none none := by
  decide

/-- C2 (amended): on the graph A→B at 10 and 15, B→A at 12 and 20, with no
bounds configured, the exact search emits exactly four realizations: the
three listed ones with node sequence [A,B,A], plus ([B,A,B],[12,15]) from
the second start node. -/
theorem claim_C2 :
    (["A", "B", "A"], ([10, 12] : List Int)) ∈
      temporal_cycles_ twoNodeGraph none none none ∧
    (["A", "B", "A"], ([10, 20] : List Int)) ∈
      temporal_cycles_ twoNodeGraph none none none ∧
    (["A", "B", "A"], ([15, 20] : List Int)) ∈
      temporal_cycles_ twoNodeGraph none none none ∧
    (["B", "A", "B"], ([12, 15] : List Int)) ∈
      temporal_cycles_ twoNodeGraph none none none ∧
    (temporal_cycles_ twoNodeGraph none none none).length = 4 := by
  decide

/-- C3: negative bounds are not rejected — there is no configuration
validation anywhere in either top-level operation, so the search runs
normally: with `maxLength = -1` it completes and emits nothing, and with
`maxCycles = -1` it runs, emits the triangle's one cycle, and only then
stops, contradicting the required fail-fast rejection. -/
theorem claim_C3 :
    temporal_cycles_ triangleGraph (some (-1)) none none = [] ∧
    temporal_cycles_ triangleGraph none (some (-1)) none =
      [(["A", "B", "C", "A"], [10, 20, 30])] ∧
    temporal_cycles triangleGraph (some (-1)) none none none = [] ∧
    temporal_cycles triangleGraph none none (some (-1)) none = [] := by
  decide

/-- C4: in both validation modes, every emitted realization carries a
strictly increasing timestamp sequence (consecutive ties are impossible). -/
theorem claim_C4 (g : TGraph) (ml mcy md mcc : Option Int) (r : Res) :
    (r ∈ temporal_cycles_ g ml mcy md → List.Chain' (· < ·) r.2) ∧
    (r ∈ temporal_cycles g ml mcy md mcc → List.Chain' (· < ·) r.2) :=
  ⟨fun h => (temporal_cycles_resOK g ml mcy md r h).2.2.2.2.1,
   fun h => (temporal_cycles_S_resOK g ml mcy md mcc r h).2.2.2.2.1⟩

/-- C4, witness on the scenario-3 graph. -/
theorem claim_C4_witness :
    (["A", "B", "A"], ([10, 12] : List Int)) ∈
      temporal_cycles_ twoNodeGraph none none none ∧
    List.Chain' (· < ·) ([10, 12] : List Int) :=
  ⟨by decide,
    (claim_C4 twoNodeGraph none none none none
      (["A", "B", "A"], [10, 12])).1 (by decide)⟩

/-- C5: in both modes, every emitted pair has pairwise-distinct node entries
apart from the final one, closes on its first node, and carries one
timestamp per edge: the node sequence is one longer than the distinct node
count, the timestamp sequence exactly that count. -/
theorem claim_C5 (g : TGraph) (ml mcy md mcc : Option Int) (r : Res) :
    (r ∈ temporal_cycles_ g ml mcy md →
      r.1.dropLast.Nodup ∧ r.1.head? = r.1.getLast? ∧
      r.1.length = r.1.dropLast.length + 1 ∧ r.2.length = r.1.dropLast.length) ∧
    (r ∈ temporal_cycles g ml mcy md mcc →
      r.1.dropLast.Nodup ∧ r.1.head? = r.1.getLast? ∧
      r.1.length = r.1.dropLast.length + 1 ∧ r.2.length = r.1.dropLast.length) :=
  ⟨fun h => resOK_shape md r (temporal_cycles_resOK g ml mcy md r h),
   fun h => resOK_shape md r (temporal_cycles_S_resOK g ml mcy md mcc r h)⟩

/-- C5, witness on the scenario-3 graph. -/
theorem claim_C5_witness :
    (["A", "B", "A"], ([10, 12] : List Int)) ∈
      temporal_cycles_ twoNodeGraph none none none ∧
    (["A", "B", "A"] : List String).dropLast.Nodup ∧
    (["A", "B", "A"] : List String).head? = (["A", "B", "A"] : List String).getLast? ∧
    (["A", "B", "A"] : List String).length =
      (["A", "B", "A"] : List String).dropLast.length + 1 ∧
    ([10, 12] : List Int).length = (["A", "B", "A"] : List String).dropLast.length :=
  ⟨by decide,
    (claim_C5 twoNodeGraph none none none none
      (["A", "B", "A"], [10, 12])).1 (by decide)⟩

/-- C6: if `maxDuration = D` is set then, in both modes, every emitted
realization satisfies `t[last] - t[first] ≤ D`. -/
theorem claim_C6 (g : TGraph) (ml mcy mcc : Option Int) (D : Int) (r : Res)
    (a b : Int) :
    (r ∈ temporal_cycles_ g ml mcy (some D) →
      r.2.head? = some a → r.2.getLast? = some b → b - a ≤ D) ∧
    (r ∈ temporal_cycles g ml mcy (some D) mcc →
      r.2.head? = some a → r.2.getLast? = some b → b - a ≤ D) :=
  ⟨fun h ha hb =>
    (temporal_cycles_resOK g ml mcy (some D) r h).2.2.2.2.2 D rfl a b ha hb,
   fun h ha hb =>
    (temporal_cycles_S_resOK g ml mcy (some D) mcc r h).2.2.2.2.2 D rfl a b ha hb⟩

/-- C6, witness: with `maxDuration = 3` on the scenario-3 graph. -/
theorem claim_C6_witness :
    (["A", "B", "A"], ([10, 12] : List Int)) ∈
      temporal_cycles_ twoNodeGraph none none (some 3) ∧
    ([10, 12] : List Int).head? = some 10 ∧
    ([10, 12] : List Int).getLast? = some 12 ∧
    (12 : Int) - 10 ≤ 3 :=
  ⟨by decide, by decide, by decide,
    (claim_C6 twoNodeGraph none none none 3
      (["A", "B", "A"], [10, 12]) 10 12).1 (by decide) (by decide) (by decide)⟩

/-- C7: if any edge of the structural cycle handed to `validate_cycle`
cannot be resolved in the graph, or resolves only to an empty timestamp
history, `validate_cycle` returns the empty list. -/
theorem claim_C7 (g : TGraph) (ec : List (String × String)) (md mc : Option Int)
    (s d : String) (hmem : (s, d) ∈ ec)
    (hbad : ∀ e, edgeLookup g s d = some e → e.history = []) :
    validate_cycle g ec md mc = [] := by
  unfold validate_cycle
  rw [buildTimeLists_none g ec s d hmem hbad]

/-- C7, witness: the structural cycle A→B→A on a graph with no B→A edge. -/
theorem claim_C7_witness :
    ("B", "A") ∈ [("A", "B"), ("B", "A")] ∧
    validate_cycle oneEdgeGraph [("A", "B"), ("B", "A")] none none = [] :=
  ⟨by decide,
    claim_C7 oneEdgeGraph [("A", "B"), ("B", "A")] none none "B" "A" (by decide)
      (fun e h => by rw [show edgeLookup oneEdgeGraph "B" "A" = none from by rfl] at h; cases h)⟩

/-- C8: with `maxCombo = M` set, `validate_cycle` returns at most `M`
realizations for one structural cycle, and in all cases the returned list
holds pairwise-distinct (nodeSequence, timestampSequence) pairs. -/
theorem claim_C8 (g : TGraph) (ec : List (String × String)) (md : Option Int)
    (M : Int) (hM : 0 ≤ M) :
    ((validate_cycle g ec md (some M)).length : Int) ≤ M ∧
    ∀ mc, (validate_cycle g ec md mc).Nodup :=
  ⟨validate_cycle_length_le g ec md M hM,
   fun mc => validate_cycle_nodup g ec md mc⟩

/-- C8, witness: the A→B→A cycle of the scenario-3 graph with `maxCombo = 2`. -/
theorem claim_C8_witness :
    (0 : Int) ≤ 2 ∧
    ((validate_cycle twoNodeGraph [("A", "B"), ("B", "A")] none (some 2)).length : Int) ≤ 2 ∧
    (validate_cycle twoNodeGraph [("A", "B"), ("B", "A")] none (some 2)).Nodup :=
  ⟨by decide,
    (claim_C8 twoNodeGraph [("A", "B"), ("B", "A")] none 2 (by decide)).1,
    (claim_C8 twoNodeGraph [("A", "B"), ("B", "A")] none 2 (by decide)).2 (some 2)⟩

/-- C9: the blocked set, the reactivation map `B` and `unblock` never
influence the emitted results: in both modes, the search with that
bookkeeping removed emits exactly the same sequence of realizations. -/
theorem claim_C9 (g : TGraph) (ml mcy md mcc : Option Int) :
    temporal_cycles_ g ml mcy md = temporal_cycles_noBk_ g ml mcy md ∧
    temporal_cycles g ml mcy md mcc = temporal_cycles_noBk g ml mcy md mcc := by
  constructor
  · unfold temporal_cycles_ temporal_cycles_noBk_
    exact runStartsE_noBk _ _ _ _ _
  · unfold temporal_cycles temporal_cycles_noBk
    exact runStartsS_noBk _ _ _ _ _

/-- C10: a node whose SCC is a singleton is discarded before search even
with a self-loop carrying a non-empty history — on the single-node
self-loop graph both searches emit nothing — while a self-loop on a node
inside an SCC of size two is emitted as a length-1 cycle. -/
theorem claim_C10 :
    nontrivialComponents selfLoopOnlyGraph = [] ∧
    temporal_cycles_ selfLoopOnlyGraph none none none = [] ∧
    temporal_cycles selfLoopOnlyGraph none none none none = [] ∧
    (["A", "A"], ([3] : List Int)) ∈
      temporal_cycles_ selfLoopInSCCGraph none none none := by
  decide

end TC
